import Mathlib

/-!
# Verification of the Smart Warehouse algorithm suite

A shallow embedding, in Lean 4, of the algorithmic core of the
SMART-WAREHOUSE-DAA repository: the stable merge sort and quicksort over
inventory items (`src/project/src/algorithms/sorting.ts`), the two search
strategies (`src/algorithms/searching.ts`), the greedy best-fit space
allocator and the 0/1 knapsack optimizer
(`src/project/src/components/Reports.tsx`), and the distance-graph /
Dijkstra route planner (`src/project/src/algorithms/dijkstra.ts`).

Modelling conventions:
* JavaScript numbers are modelled as `ℚ` (all arithmetic the code performs
  on them is exact); `Infinity` sentinels are modelled with `WithTop`.
* JavaScript strings are modelled as `List Char` (`Str`); `toLowerCase`
  becomes `Char.toLower` mapped over the list.
* Wall-clock fields of the performance records (`executionTime`) are not
  modelled; the pure result collections are.
* In-place mutation of caller-owned arrays is modelled by explicit state
  passing; object references into an array are modelled as indices.
-/

/-- JavaScript strings, modelled as lists of characters. -/
abbrev Str := List Char

/-- `s.toLowerCase()` on a JavaScript string. -/
def lowerStr (s : Str) : Str := s.map Char.toLower

/-- A warehouse location: aisle letter, shelf number, position number
(`Location` in `dijkstra.ts`; equality is structural, all three fields). -/
structure Location where
  aisle : Char
  shelf : ℤ
  position : ℤ
deriving DecidableEq, Inhabited

/-- The `InventoryItem` record from `src/types/index.ts`. -/
structure InventoryItem where
  id : Str
  name : Str
  category : Str
  quantity : ℚ
  minStock : ℚ
  maxStock : ℚ
  unitPrice : ℚ
  location : Location
  dateAdded : Str
  lastUpdated : Str
  supplier : Str
  weight : ℚ
  value : ℚ
deriving DecidableEq, Inhabited

/-- The `WarehouseSpace` record from `src/types/index.ts`; `itemId` is the
optional assigned-item reference. -/
structure WarehouseSpace where
  id : Str
  aisle : Char
  shelf : ℤ
  position : ℤ
  capacity : ℚ
  occupied : ℚ
  available : ℚ
  itemId : Option Str
deriving DecidableEq, Inhabited

/-- The sortable keys of an `InventoryItem` (`keyof InventoryItem` as used by
the sorters: every string- or number-valued field; the `location` object is
not a sort key with homogeneous primitive values). -/
inductive SortField where
  | id | name | category | quantity | minStock | maxStock | unitPrice
  | dateAdded | lastUpdated | supplier | weight | value
deriving DecidableEq

/-- The value a sorter compares: a (lowercased) string or a raw number, as
produced by `MergeSort.getValue` / `QuickSort.getValue`. -/
abbrev SortVal := Str ⊕ ℚ

/-- The JavaScript `<=` comparison as applied by `merge` to two `getValue`
results.  For a fixed sort key both operands are strings or both are
numbers (the cross-type cases never arise for a fixed field and are given
an arbitrary consistent value). -/
def jsValLe : SortVal → SortVal → Bool
  | .inl s, .inl t => decide (s ≤ t)
  | .inl _, .inr _ => true
  | .inr _, .inl _ => false
  | .inr p, .inr q => decide (p ≤ q)

theorem jsValLe_refl (a : SortVal) : jsValLe a a = true := by
  rcases a with s | p <;> simp [jsValLe]

theorem jsValLe_total (a b : SortVal) : jsValLe a b = true ∨ jsValLe b a = true := by
  rcases a with s | p <;> rcases b with t | q <;> simp [jsValLe] <;> exact le_total ..

theorem jsValLe_trans {a b c : SortVal} (h₁ : jsValLe a b = true) (h₂ : jsValLe b c = true) :
    jsValLe a c = true := by
  rcases a with s | p <;> rcases b with t | q <;> rcases c with u | r <;>
    simp_all [jsValLe] <;> exact le_trans h₁ h₂

/-! ## Stable merge, shared by the sorters

`mergeBy`/`mergeSortBy` are the source's `MergeSort.merge` and
`MergeSort.mergeSort` (recursive split at the midpoint, merge taking the
left element on ties), abstracted over the Boolean comparison the call
site builds from `getValue`.  The same functions also serve as the model
of the JavaScript built-in `Array.prototype.sort` (which is required to be
stable; a stable sort under a consistent comparator is unique). -/

/-- `MergeSort.merge`: the while loop taking the left element whenever
`leftValue <= rightValue`, followed by appending the leftovers. -/
def mergeBy (le : α → α → Bool) : List α → List α → List α
  | [], r => r
  | l, [] => l
  | a :: l, b :: r =>
    if le a b then a :: mergeBy le l (b :: r) else b :: mergeBy le (a :: l) r
termination_by l r => l.length + r.length

/-- `MergeSort.mergeSort`: split at `Math.floor(length / 2)` and merge the
recursively sorted halves. -/
def mergeSortBy (le : α → α → Bool) (l : List α) : List α :=
  if l.length ≤ 1 then l
  else
    mergeBy le (mergeSortBy le (l.take (l.length / 2)))
      (mergeSortBy le (l.drop (l.length / 2)))
termination_by l.length
decreasing_by
  · simp only [List.length_take]; omega
  · simp only [List.length_drop]; omega

theorem mergeBy_perm (le : α → α → Bool) :
    ∀ l r : List α, (mergeBy le l r).Perm (l ++ r)
  | [], r => by simp [mergeBy]
  | a :: l, [] => by simp [mergeBy]
  | a :: l, b :: r => by
    rw [mergeBy]
    split
    · exact (mergeBy_perm le l (b :: r)).cons a
    · exact ((mergeBy_perm le (a :: l) r).cons b).trans List.perm_middle.symm
termination_by l r => l.length + r.length

theorem mem_mergeBy (le : α → α → Bool) {x : α} {l r : List α} :
    x ∈ mergeBy le l r ↔ x ∈ l ∨ x ∈ r := by
  rw [(mergeBy_perm le l r).mem_iff, List.mem_append]

section SortLemmas

variable {α : Type} (le : α → α → Bool)

theorem mergeBy_sorted
    (htrans : ∀ a b c, le a b = true → le b c = true → le a c = true)
    (htot : ∀ a b, le a b = true ∨ le b a = true) :
    ∀ l r : List α, l.Pairwise (le · · = true) → r.Pairwise (le · · = true) →
      (mergeBy le l r).Pairwise (le · · = true)
  | [], r => fun _ hr => by simpa [mergeBy] using hr
  | a :: l, [] => fun hl _ => by simpa [mergeBy] using hl
  | a :: l, b :: r => fun hl hr => by
    rw [mergeBy]
    rcases List.pairwise_cons.mp hl with ⟨ha, hl'⟩
    rcases List.pairwise_cons.mp hr with ⟨hb, hr'⟩
    split
    · refine List.pairwise_cons.mpr ⟨?_, mergeBy_sorted htrans htot l (b :: r) hl' hr⟩
      intro x hx
      rcases (mem_mergeBy le).mp hx with hx | hx
      · exact ha x hx
      · rcases List.mem_cons.mp hx with rfl | hx
        · assumption
        · exact htrans _ _ _ (by assumption) (hb x hx)
    · refine List.pairwise_cons.mpr ⟨?_, mergeBy_sorted htrans htot (a :: l) r hl hr'⟩
      intro x hx
      have hba : le b a = true := by
        rcases htot a b with h | h
        · simp_all
        · exact h
      rcases (mem_mergeBy le).mp hx with hx | hx
      · rcases List.mem_cons.mp hx with rfl | hx
        · exact hba
        · exact htrans _ _ _ hba (ha x hx)
      · exact hb x hx
termination_by l r => l.length + r.length

theorem mergeBy_filter (p : α → Bool)
    (htrans : ∀ a b c, le a b = true → le b c = true → le a c = true)
    (htot : ∀ a b, le a b = true ∨ le b a = true)
    (hp : ∀ x y, p x = true → p y = true → le x y = true) :
    ∀ l r : List α, l.Pairwise (le · · = true) →
      (mergeBy le l r).filter p = l.filter p ++ r.filter p
  | [], r => fun _ => by simp [mergeBy]
  | a :: l, [] => fun _ => by simp [mergeBy]
  | a :: l, b :: r => fun hl => by
    rw [mergeBy]
    rcases List.pairwise_cons.mp hl with ⟨ha, hl'⟩
    split
    · rw [List.filter_cons, List.filter_cons]
      rcases hpa : p a with _ | _
      · simpa [hpa] using mergeBy_filter p htrans htot hp l (b :: r) hl'
      · simpa [hpa] using congrArg (a :: ·)
          (mergeBy_filter p htrans htot hp l (b :: r) hl')
    · rename_i hnle
      have hrec := mergeBy_filter p htrans htot hp (a :: l) r hl
      rcases hpb : p b with _ | _
      · simp [List.filter_cons, hpb, hrec]
      · -- the right element goes first; no (pending) left element satisfies `p`
        have hnil : (a :: l).filter p = [] := by
          rw [List.filter_eq_nil_iff]
          intro x hx hpx
          have hax : le a x = true := by
            rcases List.mem_cons.mp hx with rfl | hx
            · rcases htot x x with h | h <;> exact h
            · exact ha x hx
          have : le a b = true := htrans _ _ _ hax (hp x b hpx hpb)
          simp_all
        simp [List.filter_cons, hpb, hrec, hnil]
termination_by l r => l.length + r.length

theorem mergeSortBy_perm (l : List α) : (mergeSortBy le l).Perm l := by
  rw [mergeSortBy]
  split
  · exact .refl l
  · refine ((mergeBy_perm le _ _).trans ?_)
    have ht := mergeSortBy_perm (l.take (l.length / 2))
    have hd := mergeSortBy_perm (l.drop (l.length / 2))
    simpa [List.take_append_drop] using ht.append hd
termination_by l.length
decreasing_by
  · simp only [List.length_take]; omega
  · simp only [List.length_drop]; omega

theorem mergeSortBy_sorted
    (htrans : ∀ a b c, le a b = true → le b c = true → le a c = true)
    (htot : ∀ a b, le a b = true ∨ le b a = true) (l : List α) :
    (mergeSortBy le l).Pairwise (le · · = true) := by
  rw [mergeSortBy]
  split
  · rename_i h
    rcases l with _ | ⟨a, _ | ⟨b, l⟩⟩ <;> simp_all
  · exact mergeBy_sorted le htrans htot _ _
      (mergeSortBy_sorted htrans htot (l.take (l.length / 2)))
      (mergeSortBy_sorted htrans htot (l.drop (l.length / 2)))
termination_by l.length
decreasing_by
  · simp only [List.length_take]; omega
  · simp only [List.length_drop]; omega

theorem mergeSortBy_filter (p : α → Bool)
    (htrans : ∀ a b c, le a b = true → le b c = true → le a c = true)
    (htot : ∀ a b, le a b = true ∨ le b a = true)
    (hp : ∀ x y, p x = true → p y = true → le x y = true) (l : List α) :
    (mergeSortBy le l).filter p = l.filter p := by
  rw [mergeSortBy]
  split
  · rfl
  · rw [mergeBy_filter le p htrans htot hp _ _
      (mergeSortBy_sorted le htrans htot (l.take (l.length / 2))),
      mergeSortBy_filter p htrans htot hp (l.take (l.length / 2)),
      mergeSortBy_filter p htrans htot hp (l.drop (l.length / 2)),
      ← List.filter_append, List.take_append_drop]
termination_by l.length
decreasing_by
  · simp only [List.length_take]; omega
  · simp only [List.length_drop]; omega

end SortLemmas

/-! ## `MergeSort` (sorting.ts) -/

namespace MergeSort

/-- `MergeSort.getValue`: the sort key of an item — string fields are
lowercased, numeric fields are compared by raw value. -/
def getValue (item : InventoryItem) : SortField → SortVal
  | .id => .inl (lowerStr item.id)
  | .name => .inl (lowerStr item.name)
  | .category => .inl (lowerStr item.category)
  | .quantity => .inr item.quantity
  | .minStock => .inr item.minStock
  | .maxStock => .inr item.maxStock
  | .unitPrice => .inr item.unitPrice
  | .dateAdded => .inl (lowerStr item.dateAdded)
  | .lastUpdated => .inl (lowerStr item.lastUpdated)
  | .supplier => .inl (lowerStr item.supplier)
  | .weight => .inr item.weight
  | .value => .inr item.value

/-- The element comparison `merge` performs for the key `sortBy`. -/
def itemLe (sortBy : SortField) (a b : InventoryItem) : Bool :=
  jsValLe (getValue a sortBy) (getValue b sortBy)

/-- `MergeSort.sort`: sorts a copy of the item list by the selected key
(the wall-clock performance record is not modelled). -/
def sort (items : List InventoryItem) (sortBy : SortField) : List InventoryItem :=
  mergeSortBy (itemLe sortBy) items

theorem itemLe_trans (sortBy : SortField) (a b c : InventoryItem)
    (h₁ : itemLe sortBy a b = true) (h₂ : itemLe sortBy b c = true) :
    itemLe sortBy a c = true := jsValLe_trans h₁ h₂

theorem itemLe_total (sortBy : SortField) (a b : InventoryItem) :
    itemLe sortBy a b = true ∨ itemLe sortBy b a = true := jsValLe_total _ _

end MergeSort

/-- C1: for every list of inventory items and every sort key (whose values
are all strings or all numbers), `MergeSort.sort` returns a permutation of
the input, ordered non-decreasingly by the selected key (string keys
compared after lowercasing, numeric keys by raw value), in which the
subsequence of elements sharing any fixed key value is exactly the input's
subsequence with that key value (stability). -/
theorem C1_mergeSort_stable_sorted_perm (l : List InventoryItem) (f : SortField) :
    (MergeSort.sort l f).Perm l ∧
    (MergeSort.sort l f).Pairwise
      (fun a b => jsValLe (MergeSort.getValue a f) (MergeSort.getValue b f) = true) ∧
    ∀ v : SortVal,
      (MergeSort.sort l f).filter (fun x => decide (MergeSort.getValue x f = v)) =
        l.filter (fun x => decide (MergeSort.getValue x f = v)) := by
  refine ⟨mergeSortBy_perm _ l, ?_, ?_⟩
  · exact mergeSortBy_sorted _ (MergeSort.itemLe_trans f) (MergeSort.itemLe_total f) l
  · intro v
    refine mergeSortBy_filter _ _ (MergeSort.itemLe_trans f) (MergeSort.itemLe_total f)
      ?_ l
    intro x y hx hy
    have hx' : MergeSort.getValue x f = v := by simpa using hx
    have hy' : MergeSort.getValue y f = v := by simpa using hy
    unfold MergeSort.itemLe
    rw [hx', hy']
    exact jsValLe_refl v

/-! ## `HashMapSearch` and `BinarySearch` (searching.ts) -/

namespace HashMapSearch

/-- `keyof InventoryItem`: every field name of the item record, as a search
field selector. -/
inductive ItemField where
  | id | name | category | quantity | minStock | maxStock | unitPrice
  | location | dateAdded | lastUpdated | supplier | weight | value
deriving DecidableEq

/-- The fixed set of indexed fields of `buildHashMap`. -/
def indexedFields : List ItemField := [.id, .name, .category, .supplier]

/-- `HashMapSearch.getValue`: the string value of a field.  It is only ever
invoked (by `buildHashMap`) on the four indexed fields, which are string
fields; the `String(value)` coercion of the remaining fields is never
consulted and is modelled as the empty string. -/
def getValue (item : InventoryItem) : ItemField → Str
  | .id => item.id
  | .name => item.name
  | .category => item.category
  | .supplier => item.supplier
  | .dateAdded => item.dateAdded
  | .lastUpdated => item.lastUpdated
  | _ => []

/-- One iteration of the inner `for` loop of `buildHashMap`: record `item`
under the prefix `p` unless an item with the same id is already recorded
there.  A field map `Map<string, InventoryItem[]>` is modelled as a total
function defaulting to `[]`; the code never stores an empty list, so a
missing key and the `[]` default are observationally identical. -/
def updatePrefix (item : InventoryItem) (m : Str → List InventoryItem) (p : Str) :
    Str → List InventoryItem :=
  fun q =>
    if q = p then
      if (m p).any (fun e => decide (e.id = item.id)) then m p else m p ++ [item]
    else m q

/-- The prefixes `value.substring(0, i)` for `i = 1 .. value.length`. -/
def prefixesOf (v : Str) : List Str :=
  (List.range v.length).map (fun i => v.take (i + 1))

/-- The inner `for` loop of `buildHashMap`: insert an item under every
non-empty prefix of its (lowercased) field value. -/
def insertItem (m : Str → List InventoryItem) (item : InventoryItem) (v : Str) :
    Str → List InventoryItem :=
  (prefixesOf v).foldl (updatePrefix item) m

/-- The per-field `items.forEach` loop of `buildHashMap`. -/
def buildFieldMap (items : List InventoryItem) (f : ItemField) :
    Str → List InventoryItem :=
  items.foldl (fun m item => insertItem m item (lowerStr (getValue item f))) (fun _ => [])

/-- The `hashMaps` instance state: a map per indexed field, `none` before
the index is built or for a non-indexed field. -/
structure HashState where
  maps : ItemField → Option (Str → List InventoryItem)

/-- The state before `buildHashMap` has ever run. -/
def emptyState : HashState := ⟨fun _ => none⟩

/-- `HashMapSearch.buildHashMap`: build the four field maps (replacing any
previous state for those fields). -/
def buildHashMap (items : List InventoryItem) : HashState :=
  ⟨fun f => if f ∈ indexedFields then some (buildFieldMap items f) else none⟩

/-- `HashMapSearch.search`: exact lookup of the lowercased term in the
field's prefix map; missing field map or missing key give `[]`. -/
def search (st : HashState) (searchTerm : Str) (searchBy : ItemField) :
    List InventoryItem :=
  match st.maps searchBy with
  | none => []
  | some m => m (lowerStr searchTerm)

theorem mem_prefixesOf {v q : Str} : q ∈ prefixesOf v ↔ q ≠ [] ∧ q <+: v := by
  constructor
  · intro hq
    rcases List.mem_map.mp hq with ⟨i, hi, rfl⟩
    have hi' : i < v.length := List.mem_range.mp hi
    refine ⟨List.ne_nil_of_length_pos ?_, List.take_prefix _ _⟩
    rw [List.length_take]
    omega
  · rintro ⟨hne, hpre⟩
    have hlen : q.length ≤ v.length := hpre.length_le
    have hpos : 0 < q.length := List.length_pos.mpr hne
    refine List.mem_map.mpr ⟨q.length - 1, List.mem_range.mpr (by omega), ?_⟩
    have : q.length - 1 + 1 = q.length := by omega
    rw [this, ← List.prefix_iff_eq_take.mp hpre]

theorem nodup_prefixesOf (v : Str) : (prefixesOf v).Nodup := by
  refine List.Nodup.map_on ?_ (List.nodup_range _)
  intro i hi j hj hij
  have hi' : i < v.length := List.mem_range.mp hi
  have hj' : j < v.length := List.mem_range.mp hj
  have := congrArg List.length hij
  rw [List.length_take, List.length_take] at this
  omega

theorem foldl_updatePrefix (item : InventoryItem) :
    ∀ (ps : List Str) (m : Str → List InventoryItem) (q : Str), ps.Nodup →
      ps.foldl (updatePrefix item) m q =
        if q ∈ ps then
          if (m q).any (fun e => decide (e.id = item.id)) then m q else m q ++ [item]
        else m q
  | [], m, q, _ => by simp
  | p :: ps, m, q, hnd => by
    rcases List.nodup_cons.mp hnd with ⟨hp, hnd'⟩
    rw [List.foldl_cons, foldl_updatePrefix item ps _ q hnd']
    by_cases hqp : q = p
    · subst hqp
      have hq : q ∉ ps := hp
      simp only [hq, if_false, if_neg hq, List.mem_cons, true_or, if_true]
      simp [updatePrefix]
    · by_cases hqs : q ∈ ps
      · have : updatePrefix item m p q = m q := by simp [updatePrefix, hqp]
        simp [hqs, hqp, this, List.mem_cons]
      · have : updatePrefix item m p q = m q := by simp [updatePrefix, hqp]
        simp [hqs, hqp, this, List.mem_cons]

theorem buildFieldMap_nil_key (f : ItemField) :
    ∀ items : List InventoryItem, buildFieldMap items f [] = [] := by
  intro items
  induction items using List.reverseRecOn with
  | nil => rfl
  | append_singleton l a ih =>
    have hstep : buildFieldMap (l ++ [a]) f [] =
        insertItem (buildFieldMap l f) a (lowerStr (getValue a f)) [] := by
      unfold buildFieldMap
      rw [List.foldl_append, List.foldl_cons, List.foldl_nil]
    rw [hstep]
    unfold insertItem
    rw [foldl_updatePrefix _ _ _ _ (nodup_prefixesOf _)]
    have hnm : ([] : Str) ∉ prefixesOf (lowerStr (getValue a f)) := by
      intro h
      exact (mem_prefixesOf.mp h).1 rfl
    simp [hnm, ih]

theorem buildFieldMap_eq (f : ItemField) :
    ∀ (items : List InventoryItem) (q : Str), (items.map (·.id)).Nodup → q ≠ [] →
      buildFieldMap items f q =
        items.filter (fun it => decide (q <+: lowerStr (getValue it f))) := by
  intro items
  induction items using List.reverseRecOn with
  | nil => intro q _ _; rfl
  | append_singleton l a ih =>
    intro q hnd hq
    rw [List.map_append, List.nodup_append] at hnd
    rcases hnd with ⟨hndl, _, hdisj⟩
    have hstep : buildFieldMap (l ++ [a]) f q =
        insertItem (buildFieldMap l f) a (lowerStr (getValue a f)) q := by
      unfold buildFieldMap
      rw [List.foldl_append, List.foldl_cons, List.foldl_nil]
    rw [hstep]
    unfold insertItem
    rw [foldl_updatePrefix _ _ _ _ (nodup_prefixesOf _)]
    rw [List.filter_append]
    by_cases hmem : q ∈ prefixesOf (lowerStr (getValue a f))
    · have hpre : q <+: lowerStr (getValue a f) := (mem_prefixesOf.mp hmem).2
      have hany : ((l.filter
            (fun it => decide (q <+: lowerStr (getValue it f)))).any
              (fun e => decide (e.id = a.id))) = false := by
        rw [Bool.eq_false_iff]
        intro hany
        rcases List.any_eq_true.mp hany with ⟨e, he, hid⟩
        have he' : e ∈ l := List.mem_filter.mp he |>.1
        have : a.id ∈ l.map (·.id) := List.mem_map.mpr ⟨e, he', by simpa using hid⟩
        exact hdisj this (by simp)
      rw [if_pos hmem, ih q hndl hq, hany]
      simp [hpre]
    · have hnpre : ¬ q <+: lowerStr (getValue a f) := fun h =>
        hmem (mem_prefixesOf.mpr ⟨hq, h⟩)
      simp [hmem, ih q hndl hq, hnpre]

end HashMapSearch

/-- C3: after `buildHashMap`, searching a non-empty term on an indexed field
returns exactly the items (deduplicated by id — with distinct ids, exactly
the filtered sublist in original order) whose lowercased field value has the
lowercased term as a literal prefix; in particular a term that is a prefix
of no field value yields zero results. -/
theorem C3_hashMapSearch_eq_filter
    (items : List InventoryItem) (f : HashMapSearch.ItemField) (term : Str)
    (hf : f ∈ HashMapSearch.indexedFields)
    (hids : (items.map (·.id)).Nodup) (hterm : term ≠ []) :
    HashMapSearch.search (HashMapSearch.buildHashMap items) term f =
      items.filter
        (fun it => decide (lowerStr term <+: lowerStr (HashMapSearch.getValue it f))) ∧
    ((∀ it ∈ items, ¬ lowerStr term <+: lowerStr (HashMapSearch.getValue it f)) →
      HashMapSearch.search (HashMapSearch.buildHashMap items) term f = []) := by
  have hlt : lowerStr term ≠ [] := by
    intro h
    apply hterm
    unfold lowerStr at h
    exact List.map_eq_nil_iff.mp h
  have hmain : HashMapSearch.search (HashMapSearch.buildHashMap items) term f =
      items.filter
        (fun it => decide (lowerStr term <+: lowerStr (HashMapSearch.getValue it f))) := by
    unfold HashMapSearch.search HashMapSearch.buildHashMap
    simp only [hf, if_pos]
    exact HashMapSearch.buildFieldMap_eq f items (lowerStr term) hids hlt
  refine ⟨hmain, fun hnone => ?_⟩
  rw [hmain, List.filter_eq_nil_iff]
  intro it hit
  simpa using hnone it hit

/-- A concrete inventory item used by the witnesses ("GameMouse"). -/
def gameMouseItem : InventoryItem :=
  { id := ['i', '1'], name := ['G', 'a', 'm', 'e', 'M', 'o', 'u', 's', 'e'],
    category := ['E', 'l', 'e', 'c'], quantity := 2, minStock := 0, maxStock := 10,
    unitPrice := 5, location := ⟨'A', 1, 1⟩, dateAdded := [], lastUpdated := [],
    supplier := ['S', '1'], weight := 1, value := 10 }

/-- A concrete inventory item used by the witnesses ("Keyboard"). -/
def keyboardItem : InventoryItem :=
  { id := ['i', '2'], name := ['K', 'e', 'y', 'b', 'o', 'a', 'r', 'd'],
    category := ['E', 'l', 'e', 'c'], quantity := 45, minStock := 1, maxStock := 50,
    unitPrice := 9, location := ⟨'B', 2, 1⟩, dateAdded := [], lastUpdated := [],
    supplier := ['S', '2'], weight := 2, value := 18 }

theorem C3_hashMapSearch_eq_filter_witness :
    ([gameMouseItem, keyboardItem].map (·.id)).Nodup ∧
    HashMapSearch.search (HashMapSearch.buildHashMap [gameMouseItem, keyboardItem])
        ['G', 'a', 'm', 'e'] .name =
      [gameMouseItem, keyboardItem].filter
        (fun it =>
          decide (lowerStr ['G', 'a', 'm', 'e'] <+:
            lowerStr (HashMapSearch.getValue it .name))) :=
  ⟨by decide,
    (C3_hashMapSearch_eq_filter [gameMouseItem, keyboardItem] .name ['G', 'a', 'm', 'e']
      (by decide) (by decide) (by decide)).1⟩

/-- C10: `HashMapSearch.search` returns an empty result, without failing,
whenever the index has not been built, the field is not one of the four
indexed fields, or the search term is empty. -/
theorem C10_hashMapSearch_empty_cases
    (items : List InventoryItem) (term : Str) (f : HashMapSearch.ItemField) :
    HashMapSearch.search HashMapSearch.emptyState term f = [] ∧
    (f ∉ HashMapSearch.indexedFields →
      HashMapSearch.search (HashMapSearch.buildHashMap items) term f = []) ∧
    HashMapSearch.search (HashMapSearch.buildHashMap items) [] f = [] := by
  refine ⟨rfl, fun hf => ?_, ?_⟩
  · unfold HashMapSearch.search HashMapSearch.buildHashMap
    simp [hf]
  · unfold HashMapSearch.search HashMapSearch.buildHashMap
    by_cases hf : f ∈ HashMapSearch.indexedFields
    · simp only [hf, if_pos]
      have : lowerStr [] = [] := rfl
      rw [this, HashMapSearch.buildFieldMap_nil_key]
    · simp [hf]

theorem C10_hashMapSearch_empty_cases_witness :
    (HashMapSearch.ItemField.quantity ∉ HashMapSearch.indexedFields) ∧
    HashMapSearch.search (HashMapSearch.buildHashMap [gameMouseItem])
        ['2'] .quantity = [] :=
  ⟨by decide,
    (C10_hashMapSearch_empty_cases [gameMouseItem] ['2'] .quantity).2.1 (by decide)⟩

/-! ## `GreedyBestFit` (Reports.tsx) -/

/-- A recorded allocation: the item, the allocated space (as the index of the
mutated `WarehouseSpace` in the caller's array, modelling the object
reference), and the efficiency percentage. -/
structure SpaceAllocation where
  item : InventoryItem
  spaceIdx : ℕ
  efficiency : ℚ
deriving DecidableEq

namespace GreedyBestFit

/-- Value density `value / weight` used to rank items. -/
def density (it : InventoryItem) : ℚ := it.value / it.weight

/-- The ranking comparator `(a, b) => bDensity - aDensity`: `a` precedes `b`
exactly when the comparator is `≤ 0`, i.e. `density b ≤ density a`.
`Array.prototype.sort` is stable, and a stable sort under a consistent
comparator is a unique function of the input, modelled by `mergeSortBy`.
(For zero item weights the JavaScript comparator is not consistent —
`Infinity - Infinity` is `NaN` — which is why the claims assume positive
weights.) -/
def rankLe (a b : InventoryItem) : Bool := decide (density b ≤ density a)

/-- The evolving allocator state: the caller's space array (mutated in
place), the live candidate pool `spaces` as indices into it, and the two
result lists. -/
structure AllocState where
  store : List WarehouseSpace
  pool : List ℕ
  allocations : List SpaceAllocation
  unallocated : List InventoryItem

/-- The available capacity of the space referenced by index `i`. -/
def availOf (store : List WarehouseSpace) (i : ℕ) : ℚ :=
  (store.getD i default).available

/-- One iteration of the best-fit scan `for (const space of spaces)`:
`acc = none` models `bestSpace === null` (with `bestFit = Infinity`, so any
eligible wasted space is an improvement). -/
def bestStep (store : List WarehouseSpace) (q : ℚ) (acc : Option (ℕ × ℚ)) (i : ℕ) :
    Option (ℕ × ℚ) :=
  if q ≤ availOf store i then
    let wasted := availOf store i - q
    match acc with
    | none => some (i, wasted)
    | some (bi, bf) => if wasted < bf then some (i, wasted) else some (bi, bf)
  else acc

/-- The best-fit scan over the candidate pool: the chosen space index and
its wasted space, or `none` if no space can accommodate the item. -/
def selectBest (store : List WarehouseSpace) (pool : List ℕ) (q : ℚ) :
    Option (ℕ × ℚ) :=
  pool.foldl (bestStep store q) none

/-- The body of `for (const item of sortedItems)`: allocate the item to the
best-fit space (mutating it in place and dropping it from the pool when it
becomes exactly full) or append the item to `unallocated`. -/
def allocateItem (st : AllocState) (item : InventoryItem) : AllocState :=
  match selectBest st.store st.pool item.quantity with
  | none => { st with unallocated := st.unallocated ++ [item] }
  | some (bi, _) =>
    let sp := st.store.getD bi default
    let efficiency := item.quantity / sp.capacity * 100
    let sp' := { sp with
      available := sp.available - item.quantity
      occupied := sp.occupied + item.quantity
      itemId := some item.id }
    { store := st.store.set bi sp'
      pool := if sp'.available = 0 then st.pool.erase bi else st.pool
      allocations := st.allocations ++ [⟨item, bi, efficiency⟩]
      unallocated := st.unallocated }

/-- `[...availableSpaces].filter(space => space.available > 0)`: the initial
candidate pool, as indices in original order. -/
def initPool (spaces : List WarehouseSpace) : List ℕ :=
  (List.range spaces.length).filter (fun i => decide (0 < availOf spaces i))

/-- `GreedyBestFit.allocateSpace`: rank the items by descending value
density (stable) and allocate each in turn. -/
def allocateSpace (items : List InventoryItem) (availableSpaces : List WarehouseSpace) :
    AllocState :=
  (mergeSortBy rankLe items).foldl allocateItem
    ⟨availableSpaces, initPool availableSpaces, [], []⟩

theorem rankLe_trans (a b c : InventoryItem)
    (h₁ : rankLe a b = true) (h₂ : rankLe b c = true) : rankLe a c = true := by
  simp only [rankLe, decide_eq_true_eq] at *
  exact h₂.trans h₁

theorem rankLe_total (a b : InventoryItem) : rankLe a b = true ∨ rankLe b a = true := by
  simp only [rankLe, decide_eq_true_eq]
  exact le_total (density b) (density a)

theorem bestStep_skip (store : List WarehouseSpace) (q : ℚ) (acc : Option (ℕ × ℚ))
    (i : ℕ) (h : ¬ q ≤ availOf store i) : bestStep store q acc i = acc := by
  simp [bestStep, h]

theorem bestStep_none_eq (store : List WarehouseSpace) (q : ℚ) (i : ℕ)
    (h : q ≤ availOf store i) :
    bestStep store q none i = some (i, availOf store i - q) := by
  simp [bestStep, h]

theorem bestStep_some_eq (store : List WarehouseSpace) (q : ℚ) (i b0 : ℕ) (f0 : ℚ)
    (h : q ≤ availOf store i) :
    bestStep store q (some (b0, f0)) i =
      if availOf store i - q < f0 then some (i, availOf store i - q)
      else some (b0, f0) := by
  simp [bestStep, h]

/-- If the scan returns a candidate, that candidate was eligible: it belongs
to the scanned pool, can accommodate the quantity, and carries its own
wasted space. -/
theorem foldl_bestStep_some (store : List WarehouseSpace) (q : ℚ) :
    ∀ (pool : List ℕ) (acc : Option (ℕ × ℚ)) {bi : ℕ} {bf : ℚ},
      pool.foldl (bestStep store q) acc = some (bi, bf) →
      acc = some (bi, bf) ∨
        (bi ∈ pool ∧ q ≤ availOf store bi ∧ bf = availOf store bi - q)
  | [], acc, bi, bf => fun h => .inl h
  | i :: pool, acc, bi, bf => fun h => by
    rw [List.foldl_cons] at h
    rcases foldl_bestStep_some store q pool _ h with h' | h'
    · by_cases hq : q ≤ availOf store i
      · rcases acc with _ | ⟨b0, f0⟩
        · rw [bestStep_none_eq store q i hq] at h'
          simp only [Option.some.injEq, Prod.mk.injEq] at h'
          obtain ⟨rfl, rfl⟩ := h'
          exact .inr ⟨by simp, hq, rfl⟩
        · rw [bestStep_some_eq store q i b0 f0 hq] at h'
          split at h'
          · simp only [Option.some.injEq, Prod.mk.injEq] at h'
            obtain ⟨rfl, rfl⟩ := h'
            exact .inr ⟨by simp, hq, rfl⟩
          · exact .inl h'
      · rw [bestStep_skip store q acc i hq] at h'
        exact .inl h'
    · exact .inr ⟨by simp [h'.1], h'.2⟩

/-- A scan that has already found a candidate always returns a candidate,
at most improving the wasted space. -/
theorem foldl_bestStep_mono (store : List WarehouseSpace) (q : ℚ) :
    ∀ (pool : List ℕ) (bi₀ : ℕ) (bf₀ : ℚ),
      ∃ bi bf, pool.foldl (bestStep store q) (some (bi₀, bf₀)) = some (bi, bf) ∧ bf ≤ bf₀
  | [], bi₀, bf₀ => ⟨bi₀, bf₀, rfl, le_refl _⟩
  | i :: pool, bi₀, bf₀ => by
    rw [List.foldl_cons]
    by_cases hq : q ≤ availOf store i
    · rw [bestStep_some_eq store q i bi₀ bf₀ hq]
      split
      · rename_i hlt
        rcases foldl_bestStep_mono store q pool i (availOf store i - q) with ⟨bi, bf, h, hle⟩
        exact ⟨bi, bf, h, hle.trans (le_of_lt hlt)⟩
      · exact foldl_bestStep_mono store q pool bi₀ bf₀
    · rw [bestStep_skip store q _ i hq]
      exact foldl_bestStep_mono store q pool bi₀ bf₀

/-- After scanning an eligible space, the scan result is a candidate whose
wasted space is no worse than that space's. -/
theorem foldl_bestStep_min (store : List WarehouseSpace) (q : ℚ)
    (pool : List ℕ) (acc : Option (ℕ × ℚ)) (j : ℕ)
    (hj : j ∈ pool) (hq : q ≤ availOf store j) :
    ∃ bi bf, pool.foldl (bestStep store q) acc = some (bi, bf) ∧
      bf ≤ availOf store j - q := by
  rcases List.append_of_mem hj with ⟨l₁, l₂, rfl⟩
  rw [List.foldl_append, List.foldl_cons]
  have hstep : ∃ bi₁ bf₁,
      bestStep store q (l₁.foldl (bestStep store q) acc) j = some (bi₁, bf₁) ∧
        bf₁ ≤ availOf store j - q := by
    rcases hfold : l₁.foldl (bestStep store q) acc with _ | ⟨b0, f0⟩
    · exact ⟨j, availOf store j - q, bestStep_none_eq store q j hq, le_refl _⟩
    · rw [bestStep_some_eq store q j b0 f0 hq]
      by_cases hlt : availOf store j - q < f0
      · rw [if_pos hlt]
        exact ⟨j, availOf store j - q, rfl, le_refl _⟩
      · rw [if_neg hlt]
        exact ⟨b0, f0, rfl, le_of_not_lt hlt⟩
  rcases hstep with ⟨bi₁, bf₁, heq, hle₁⟩
  rw [heq]
  rcases foldl_bestStep_mono store q l₂ bi₁ bf₁ with ⟨bi, bf, h, hle⟩
  exact ⟨bi, bf, h, hle.trans hle₁⟩

/-- The scan returns `none` exactly when no pool space can accommodate the
quantity. -/
theorem selectBest_none_iff (store : List WarehouseSpace) (pool : List ℕ) (q : ℚ) :
    selectBest store pool q = none ↔ ∀ j ∈ pool, ¬ q ≤ availOf store j := by
  constructor
  · intro h j hj hq
    rcases foldl_bestStep_min store q pool none j hj hq with ⟨bi, bf, heq, _⟩
    rw [selectBest] at h
    rw [heq] at h
    exact Option.noConfusion h
  · intro hall
    unfold selectBest
    induction pool with
    | nil => rfl
    | cons i pool ih =>
      rw [List.foldl_cons]
      have : bestStep store q none i = none := by
        unfold bestStep
        rw [if_neg (hall i (by simp))]
      rw [this]
      exact ih (fun j hj => hall j (by simp [hj]))

/-- Full characterization of a successful best-fit selection: the chosen
space is eligible and minimizes the wasted space among eligible pool
spaces. -/
theorem selectBest_some_spec (store : List WarehouseSpace) (pool : List ℕ) (q : ℚ)
    {bi : ℕ} {bf : ℚ} (h : selectBest store pool q = some (bi, bf)) :
    bi ∈ pool ∧ q ≤ availOf store bi ∧ bf = availOf store bi - q ∧
      ∀ j ∈ pool, q ≤ availOf store j → bf ≤ availOf store j - q := by
  rcases foldl_bestStep_some store q pool none h with h' | h'
  · exact Option.noConfusion h'
  · refine ⟨h'.1, h'.2.1, h'.2.2, fun j hj hq => ?_⟩
    rcases foldl_bestStep_min store q pool none j hj hq with ⟨bi', bf', heq, hle⟩
    rw [selectBest] at h
    rw [h] at heq
    cases heq
    exact hle

/-- The space-unit invariant of the data model. -/
def SpInv (sp : WarehouseSpace) : Prop :=
  sp.occupied + sp.available = sp.capacity ∧ 0 ≤ sp.available

theorem spInv_default : SpInv default := by
  constructor <;> norm_num [default]

theorem allocateItem_spInv (st : AllocState) (item : InventoryItem)
    (h : ∀ sp ∈ st.store, SpInv sp) :
    ∀ sp ∈ (allocateItem st item).store, SpInv sp := by
  unfold allocateItem
  rcases hsel : selectBest st.store st.pool item.quantity with _ | ⟨bi, bf⟩
  · simpa using h
  · simp only
    intro sp hsp
    rcases List.mem_or_eq_of_mem_set hsp with hmem | rfl
    · exact h sp hmem
    · have hq : item.quantity ≤ availOf st.store bi :=
        (selectBest_some_spec st.store st.pool item.quantity hsel).2.1
      have hspi : SpInv (st.store.getD bi default) := by
        by_cases hlt : bi < st.store.length
        · refine h _ ?_
          rw [List.getD_eq_getElem st.store default hlt]
          exact List.getElem_mem hlt
        · rw [List.getD_eq_default _ _ (le_of_not_lt hlt)]
          exact spInv_default
      rcases hspi with ⟨hcap, _⟩
      constructor
      · simp only
        linarith
      · simp only
        unfold availOf at hq
        linarith

end GreedyBestFit

/-- C5: if every space unit initially satisfies `available = capacity -
occupied` with `available ≥ 0`, then after `allocateSpace` every space unit
still satisfies `occupied + available = capacity` and none has negative
`available` (the guard `available ≥ item.quantity` preserves the invariant
across each in-place mutation). -/
theorem C5_allocateSpace_space_invariant (items : List InventoryItem)
    (spaces : List WarehouseSpace)
    (h : ∀ sp ∈ spaces, sp.available = sp.capacity - sp.occupied ∧ 0 ≤ sp.available) :
    ∀ sp ∈ (GreedyBestFit.allocateSpace items spaces).store,
      sp.occupied + sp.available = sp.capacity ∧ 0 ≤ sp.available := by
  have hinit : ∀ sp ∈ spaces, GreedyBestFit.SpInv sp := by
    intro sp hsp
    rcases h sp hsp with ⟨h1, h2⟩
    exact ⟨by linarith, h2⟩
  have hfold : ∀ (l : List InventoryItem) (st : GreedyBestFit.AllocState),
      (∀ sp ∈ st.store, GreedyBestFit.SpInv sp) →
      ∀ sp ∈ (l.foldl GreedyBestFit.allocateItem st).store, GreedyBestFit.SpInv sp := by
    intro l
    induction l with
    | nil =>
      intro st h'
      exact h'
    | cons a l ih =>
      intro st h'
      rw [List.foldl_cons]
      exact ih _ (GreedyBestFit.allocateItem_spInv st a h')
  exact hfold _ _ hinit

/-- A concrete space unit used by the witnesses. -/
def sampleSpace : WarehouseSpace :=
  { id := ['s', '1'], aisle := 'A', shelf := 1, position := 1,
    capacity := 50, occupied := 10, available := 40, itemId := none }

theorem C5_allocateSpace_space_invariant_witness :
    (∀ sp ∈ [sampleSpace], sp.available = sp.capacity - sp.occupied ∧ 0 ≤ sp.available) ∧
    ∀ sp ∈ (GreedyBestFit.allocateSpace [gameMouseItem, keyboardItem]
        [sampleSpace]).store,
      sp.occupied + sp.available = sp.capacity ∧ 0 ≤ sp.available :=
  ⟨by norm_num [sampleSpace],
    C5_allocateSpace_space_invariant [gameMouseItem, keyboardItem] [sampleSpace]
      (by norm_num [sampleSpace])⟩

/-- C6: `allocateSpace` processes items in descending value-density order
(stable on ties), allocates each item to a pool space with the least
wasted space among those whose availability covers the item's quantity,
removes a space from the pool exactly when its availability reaches zero,
and appends the items no space can take to `unallocated` in ranked order. -/
theorem C6_allocateSpace_bestFit_behaviour (items : List InventoryItem)
    (spaces : List WarehouseSpace) (hw : ∀ it ∈ items, 0 < it.weight) :
    ((mergeSortBy GreedyBestFit.rankLe items).Perm items ∧
      (mergeSortBy GreedyBestFit.rankLe items).Pairwise
        (fun a b => GreedyBestFit.density b ≤ GreedyBestFit.density a) ∧
      ∀ dq : ℚ,
        (mergeSortBy GreedyBestFit.rankLe items).filter
            (fun x => decide (GreedyBestFit.density x = dq)) =
          items.filter (fun x => decide (GreedyBestFit.density x = dq))) ∧
    (∀ (store : List WarehouseSpace) (pool : List ℕ) (q : ℚ),
      (GreedyBestFit.selectBest store pool q = none ↔
        ∀ j ∈ pool, GreedyBestFit.availOf store j < q) ∧
      ∀ bi bf, GreedyBestFit.selectBest store pool q = some (bi, bf) →
        bi ∈ pool ∧ q ≤ GreedyBestFit.availOf store bi ∧
          bf = GreedyBestFit.availOf store bi - q ∧
          ∀ j ∈ pool, q ≤ GreedyBestFit.availOf store j →
            bf ≤ GreedyBestFit.availOf store j - q) ∧
    (∀ (st : GreedyBestFit.AllocState) (item : InventoryItem),
      (GreedyBestFit.selectBest st.store st.pool item.quantity = none →
        GreedyBestFit.allocateItem st item =
          { st with unallocated := st.unallocated ++ [item] }) ∧
      ∀ bi bf,
        GreedyBestFit.selectBest st.store st.pool item.quantity = some (bi, bf) →
        (GreedyBestFit.allocateItem st item).pool =
          (if GreedyBestFit.availOf st.store bi - item.quantity = 0
            then st.pool.erase bi else st.pool) ∧
        (GreedyBestFit.allocateItem st item).unallocated = st.unallocated) ∧
    (GreedyBestFit.allocateSpace items spaces).unallocated.Sublist
      (mergeSortBy GreedyBestFit.rankLe items) := by
  refine ⟨⟨mergeSortBy_perm _ items, ?_, ?_⟩, ?_, ?_, ?_⟩
  · exact (mergeSortBy_sorted _ GreedyBestFit.rankLe_trans GreedyBestFit.rankLe_total
      items).imp (by simp [GreedyBestFit.rankLe])
  · intro dq
    refine mergeSortBy_filter _ _ GreedyBestFit.rankLe_trans GreedyBestFit.rankLe_total
      ?_ items
    intro x y hx hy
    have hx' : GreedyBestFit.density x = dq := by simpa using hx
    have hy' : GreedyBestFit.density y = dq := by simpa using hy
    simp [GreedyBestFit.rankLe, hx', hy']
  · intro store pool q
    constructor
    · rw [GreedyBestFit.selectBest_none_iff]
      constructor
      · intro h j hj
        exact lt_of_not_le (h j hj)
      · intro h j hj
        exact not_le.mpr (h j hj)
    · intro bi bf h
      exact GreedyBestFit.selectBest_some_spec store pool q h
  · intro st item
    constructor
    · intro h
      simp [GreedyBestFit.allocateItem, h]
    · intro bi bf h
      constructor
      · simp [GreedyBestFit.allocateItem, h, GreedyBestFit.availOf]
      · simp [GreedyBestFit.allocateItem, h]
  · have hsub : ∀ (l : List InventoryItem) (st : GreedyBestFit.AllocState),
        ∃ u, (l.foldl GreedyBestFit.allocateItem st).unallocated =
            st.unallocated ++ u ∧ u.Sublist l := by
      intro l
      induction l with
      | nil =>
        intro st
        exact ⟨[], by simp, List.nil_sublist _⟩
      | cons a l ih =>
        intro st
        rw [List.foldl_cons]
        rcases ih (GreedyBestFit.allocateItem st a) with ⟨u, hu, hsubl⟩
        rcases hsel : GreedyBestFit.selectBest st.store st.pool a.quantity with _ | ⟨bi, bf⟩
        · refine ⟨a :: u, ?_, hsubl.cons₂ a⟩
          rw [hu]
          simp [GreedyBestFit.allocateItem, hsel]
        · refine ⟨u, ?_, hsubl.cons a⟩
          rw [hu]
          simp [GreedyBestFit.allocateItem, hsel]
    rcases hsub (mergeSortBy GreedyBestFit.rankLe items)
      ⟨spaces, GreedyBestFit.initPool spaces, [], []⟩ with ⟨u, hu, hsubl⟩
    unfold GreedyBestFit.allocateSpace
    rw [hu]
    simpa using hsubl

theorem C6_allocateSpace_bestFit_behaviour_witness :
    (∀ it ∈ [gameMouseItem, keyboardItem], 0 < it.weight) ∧
    (GreedyBestFit.allocateSpace [gameMouseItem, keyboardItem]
        [sampleSpace]).unallocated.Sublist
      (mergeSortBy GreedyBestFit.rankLe [gameMouseItem, keyboardItem]) :=
  ⟨by norm_num [gameMouseItem, keyboardItem],
    (C6_allocateSpace_bestFit_behaviour [gameMouseItem, keyboardItem] [sampleSpace]
      (by norm_num [gameMouseItem, keyboardItem])).2.2.2⟩

/-! ## `KnapsackOptimization` (Reports.tsx) -/

namespace KnapsackOptimization

/-- `Math.ceil(item.weight)`: the weight rounded up to the nearest integer
before being used as a table index. -/
def roundedWeight (it : InventoryItem) : ℤ := ⌈it.weight⌉

/-- The DP table `dp[i][w]`.  Row `0` is the initial all-zero row; the code
fills columns `w = 1 .. capacity` only, so column `0` keeps its initial `0`
in every row.  Including item `i` requires its rounded weight to fit in
`w`; the cell takes the larger of include and exclude. -/
def dpTable (items : List InventoryItem) : ℕ → ℕ → ℚ
  | 0, _ => 0
  | i + 1, w =>
    if w = 0 then 0
    else
      if roundedWeight (items.getD i default) ≤ (w : ℤ) then
        max ((items.getD i default).value +
            dpTable items i (w - (roundedWeight (items.getD i default)).toNat))
          (dpTable items i w)
      else dpTable items i w

/-- The backtracking loop (`for i = n; i > 0 && w > 0; i--`): whenever the
cell differs from the cell one row up, the item was included — record it,
reduce the remaining capacity by its rounded weight.  Produces the
selected items in discovery (reverse) order. -/
def backtrack (items : List InventoryItem) : ℕ → ℕ → List InventoryItem
  | 0, _ => []
  | i + 1, w =>
    if w = 0 then []
    else if dpTable items (i + 1) w ≠ dpTable items i w then
      items.getD i default ::
        backtrack items i (w - (roundedWeight (items.getD i default)).toNat)
    else backtrack items i w

/-- The result triple of `optimizeValue` (performance timing omitted). -/
structure KnapsackResult where
  selectedItems : List InventoryItem
  totalValue : ℚ
  totalWeight : ℚ
deriving DecidableEq

/-- `KnapsackOptimization.optimizeValue`: fill the table, backtrack, and
reverse the discovery order; `totalWeight` accumulates the true (unrounded)
weights of the recorded items. -/
def optimizeValue (items : List InventoryItem) (capacity : ℕ) : KnapsackResult :=
  let picked := backtrack items items.length capacity
  { selectedItems := picked.reverse
    totalValue := dpTable items items.length capacity
    totalWeight := (picked.map (·.weight)).sum }

/-- The sum of rounded weights of a subset. -/
def subsetRoundedWeight (s : List InventoryItem) : ℤ := (s.map roundedWeight).sum

/-- The sum of values of a subset. -/
def subsetValue (s : List InventoryItem) : ℚ := (s.map (·.value)).sum

/-- The specification's reference answer: brute-force subset enumeration —
the maximum, over all subsets whose rounded weights sum to at most the
capacity, of the subset's total value. -/
def bruteForceBestValue (items : List InventoryItem) (capacity : ℕ) : ℚ :=
  ((items.sublists.filter
      (fun s => decide (subsetRoundedWeight s ≤ (capacity : ℤ)))).map
    subsetValue).foldl max 0

theorem le_foldl_max : ∀ (xs : List ℚ) (a : ℚ), a ≤ xs.foldl max a
  | [], a => le_refl a
  | x :: xs, a => (le_max_left a x).trans (le_foldl_max xs (max a x))

theorem foldl_max_le : ∀ (xs : List ℚ) (a b : ℚ), a ≤ b → (∀ x ∈ xs, x ≤ b) →
    xs.foldl max a ≤ b
  | [], a, b, ha, _ => ha
  | x :: xs, a, b, ha, h =>
    foldl_max_le xs (max a x) b (max_le ha (h x (by simp)))
      (fun y hy => h y (by simp [hy]))

theorem mem_le_foldl_max : ∀ (xs : List ℚ) (a x : ℚ), x ∈ xs → x ≤ xs.foldl max a
  | [], _, x, hx => absurd hx (List.not_mem_nil x)
  | x' :: xs, a, x, hx => by
    rw [List.foldl_cons]
    rcases List.mem_cons.mp hx with rfl | hx
    · exact (le_max_right a x).trans (le_foldl_max xs (max a x))
    · exact mem_le_foldl_max xs (max a x') x hx

theorem one_le_roundedWeight {it : InventoryItem} (h : 0 < it.weight) :
    1 ≤ roundedWeight it := Int.ceil_pos.mpr h

theorem subsetRoundedWeight_nonneg {items s : List InventoryItem}
    (hw : ∀ it ∈ items, 0 < it.weight) (hs : s.Sublist items) :
    0 ≤ subsetRoundedWeight s := by
  refine List.sum_nonneg ?_
  intro x hx
  rcases List.mem_map.mp hx with ⟨it, hit, rfl⟩
  exact le_of_lt (lt_of_lt_of_le zero_lt_one
    (one_le_roundedWeight (hw it (hs.subset hit))))

theorem one_le_subsetRoundedWeight {items s : List InventoryItem}
    (hw : ∀ it ∈ items, 0 < it.weight) (hs : s.Sublist items) (hne : s ≠ []) :
    1 ≤ subsetRoundedWeight s := by
  rcases s with _ | ⟨a, s'⟩
  · exact absurd rfl hne
  · have ha : 1 ≤ roundedWeight a :=
      one_le_roundedWeight (hw a (hs.subset (by simp)))
    have hs' : 0 ≤ subsetRoundedWeight s' :=
      subsetRoundedWeight_nonneg hw ((List.sublist_cons_self a s').trans hs)
    unfold subsetRoundedWeight at *
    rw [List.map_cons, List.sum_cons]
    omega

theorem take_succ_getD {items : List InventoryItem} {i : ℕ} (hi : i < items.length) :
    items.take (i + 1) = items.take i ++ [items.getD i default] := by
  rw [List.take_succ, List.getElem?_eq_getElem hi,
    List.getD_eq_getElem items default hi]
  rfl

/-- Every subset of the first `i` items that fits in capacity `w` has value
at most `dp[i][w]` (here item weights are positive, so rounded weights are
at least 1 and the untouched `w = 0` column is genuinely optimal). -/
theorem subsetValue_le_dpTable (items : List InventoryItem)
    (hw : ∀ it ∈ items, 0 < it.weight) :
    ∀ i : ℕ, i ≤ items.length → ∀ (w : ℕ) (s : List InventoryItem),
      s.Sublist (items.take i) → subsetRoundedWeight s ≤ (w : ℤ) →
      subsetValue s ≤ dpTable items i w := by
  intro i
  induction i with
  | zero =>
    intro _ w s hs _
    rw [List.take_zero, List.sublist_nil] at hs
    subst hs
    simp [subsetValue, dpTable]
  | succ i ih =>
    intro hi w s hs hsw
    have hi' : i < items.length := by omega
    have hil : i ≤ items.length := by omega
    have hmem : items.getD i default ∈ items := by
      rw [List.getD_eq_getElem items default hi']
      exact List.getElem_mem hi'
    rw [take_succ_getD hi'] at hs
    rcases List.sublist_append_iff.mp hs with ⟨s₁, s₂, rfl, hs₁, hs₂⟩
    have hs₁items : s₁.Sublist items := hs₁.trans (List.take_sublist i items)
    have hs₂cases : s₂ = [] ∨ s₂ = [items.getD i default] := by
      cases hs₂ with
      | cons _ h' => exact .inl (List.sublist_nil.mp h')
      | cons₂ _ h' => exact .inr (by rw [List.sublist_nil.mp h'])
    rcases hs₂cases with rfl | rfl
    · rw [List.append_nil] at hsw ⊢
      rcases Nat.eq_zero_or_pos w with rfl | hwpos
      · have hnil : s₁ = [] := by
          by_contra hne
          have := one_le_subsetRoundedWeight hw hs₁items hne
          omega
        subst hnil
        simp [subsetValue, dpTable]
      · have hw0 : w ≠ 0 := by omega
        have hrec := ih hil w s₁ hs₁ hsw
        simp only [dpTable, hw0, if_false]
        split
        · exact hrec.trans (le_max_right _ _)
        · exact hrec
    · have hsw' : subsetRoundedWeight s₁ + roundedWeight (items.getD i default) ≤ (w : ℤ) := by
        unfold subsetRoundedWeight at hsw ⊢
        rw [List.map_append, List.sum_append] at hsw
        simpa using hsw
      have hs₁w : 0 ≤ subsetRoundedWeight s₁ := subsetRoundedWeight_nonneg hw hs₁items
      have hrw1 : 1 ≤ roundedWeight (items.getD i default) :=
        one_le_roundedWeight (hw _ hmem)
      have hle : roundedWeight (items.getD i default) ≤ (w : ℤ) := by omega
      have hw0 : w ≠ 0 := by
        rintro rfl
        simp at hle
        omega
      have hcast : ((w - (roundedWeight (items.getD i default)).toNat : ℕ) : ℤ) =
          (w : ℤ) - roundedWeight (items.getD i default) := by
        have := Int.toNat_of_nonneg (by omega :
          (0 : ℤ) ≤ roundedWeight (items.getD i default))
        omega
      have hrec := ih hil (w - (roundedWeight (items.getD i default)).toNat) s₁ hs₁
        (by rw [hcast]; omega)
      have hval : subsetValue (s₁ ++ [items.getD i default]) =
          subsetValue s₁ + (items.getD i default).value := by
        unfold subsetValue
        rw [List.map_append, List.sum_append]
        simp
      simp only [dpTable, hw0, if_false, if_pos hle]
      refine le_trans ?_ (le_max_left _ _)
      rw [hval]
      linarith

/-- `dp[i][w]` is achieved by some subset of the first `i` items fitting in
capacity `w`. -/
theorem dpTable_achieved (items : List InventoryItem)
    (hw : ∀ it ∈ items, 0 < it.weight) :
    ∀ i : ℕ, i ≤ items.length → ∀ w : ℕ, ∃ s : List InventoryItem,
      s.Sublist (items.take i) ∧ subsetRoundedWeight s ≤ (w : ℤ) ∧
      subsetValue s = dpTable items i w := by
  intro i
  induction i with
  | zero =>
    intro _ w
    exact ⟨[], by simp, by simp [subsetRoundedWeight], by simp [subsetValue, dpTable]⟩
  | succ i ih =>
    intro hi w
    have hi' : i < items.length := by omega
    have hil : i ≤ items.length := by omega
    have hmem : items.getD i default ∈ items := by
      rw [List.getD_eq_getElem items default hi']
      exact List.getElem_mem hi'
    have htake : items.take i |>.Sublist (items.take (i + 1)) := by
      rw [take_succ_getD hi']
      exact List.sublist_append_left _ _
    rcases Nat.eq_zero_or_pos w with rfl | hwpos
    · exact ⟨[], List.nil_sublist _, by simp [subsetRoundedWeight],
        by simp [subsetValue, dpTable]⟩
    · have hw0 : w ≠ 0 := by omega
      by_cases hle : roundedWeight (items.getD i default) ≤ (w : ℤ)
      · have hrw1 : 1 ≤ roundedWeight (items.getD i default) :=
          one_le_roundedWeight (hw _ hmem)
        have hcast : ((w - (roundedWeight (items.getD i default)).toNat : ℕ) : ℤ) =
            (w : ℤ) - roundedWeight (items.getD i default) := by
          have := Int.toNat_of_nonneg (by omega :
            (0 : ℤ) ≤ roundedWeight (items.getD i default))
          omega
        obtain ⟨s₁, hs₁, hw₁, hv₁⟩ :=
          ih hil (w - (roundedWeight (items.getD i default)).toNat)
        obtain ⟨s₂, hs₂, hw₂, hv₂⟩ := ih hil w
        rcases le_total
            ((items.getD i default).value +
              dpTable items i (w - (roundedWeight (items.getD i default)).toNat))
            (dpTable items i w) with hmax | hmax
        · refine ⟨s₂, hs₂.trans htake, hw₂, ?_⟩
          simp only [dpTable, hw0, if_false, if_pos hle]
          rw [max_eq_right hmax, hv₂]
        · refine ⟨s₁ ++ [items.getD i default], ?_, ?_, ?_⟩
          · rw [take_succ_getD hi']
            exact hs₁.append (List.Sublist.refl _)
          · unfold subsetRoundedWeight
            rw [List.map_append, List.sum_append]
            simp only [List.map_cons, List.map_nil, List.sum_cons, List.sum_nil,
              add_zero]
            have : subsetRoundedWeight s₁ ≤
                (w : ℤ) - roundedWeight (items.getD i default) := by
              rw [← hcast]
              exact hw₁
            unfold subsetRoundedWeight at this
            omega
          · unfold subsetValue
            rw [List.map_append, List.sum_append]
            simp only [List.map_cons, List.map_nil, List.sum_cons, List.sum_nil,
              add_zero]
            simp only [dpTable, hw0, if_false, if_pos hle]
            rw [max_eq_left hmax]
            unfold subsetValue at hv₁
            rw [hv₁]
            ring
      · obtain ⟨s₂, hs₂, hw₂, hv₂⟩ := ih hil w
        refine ⟨s₂, hs₂.trans htake, hw₂, ?_⟩
        simp only [dpTable, hw0, if_false, if_neg hle]
        exact hv₂

/-- With positive weights the DP answer equals brute-force enumeration. -/
theorem dpTable_eq_bruteForce (items : List InventoryItem) (capacity : ℕ)
    (hw : ∀ it ∈ items, 0 < it.weight) :
    dpTable items items.length capacity = bruteForceBestValue items capacity := by
  apply le_antisymm
  · obtain ⟨s, hs, hsw, hv⟩ :=
      dpTable_achieved items hw items.length (le_refl _) capacity
    rw [List.take_length] at hs
    rw [← hv]
    apply mem_le_foldl_max
    refine List.mem_map.mpr ⟨s, ?_, rfl⟩
    rw [List.mem_filter]
    exact ⟨List.mem_sublists.mpr hs, by simpa using hsw⟩
  · apply foldl_max_le
    · have := subsetValue_le_dpTable items hw items.length (le_refl _) capacity []
        (by simp [List.take_length]) (by simp [subsetRoundedWeight])
      simpa [subsetValue] using this
    · intro x hx
      rcases List.mem_map.mp hx with ⟨s, hsmem, rfl⟩
      rw [List.mem_filter] at hsmem
      refine subsetValue_le_dpTable items hw items.length (le_refl _) capacity s ?_ ?_
      · rw [List.take_length]
        exact List.mem_sublists.mp hsmem.1
      · simpa using hsmem.2

/-- The backtracked selection (in restored order) is a subsequence of the
first `i` items. -/
theorem backtrack_sublist (items : List InventoryItem) :
    ∀ i : ℕ, i ≤ items.length → ∀ w : ℕ,
      (backtrack items i w).reverse.Sublist (items.take i) := by
  intro i
  induction i with
  | zero => intro _ w; simp [backtrack]
  | succ i ih =>
    intro hi w
    have hi' : i < items.length := by omega
    have hil : i ≤ items.length := by omega
    have htake : items.take i |>.Sublist (items.take (i + 1)) := by
      rw [take_succ_getD hi']
      exact List.sublist_append_left _ _
    simp only [backtrack]
    by_cases hw0 : w = 0
    · simp [hw0]
    · simp only [hw0, if_false]
      by_cases hne : dpTable items (i + 1) w ≠ dpTable items i w
      · rw [if_pos hne, List.reverse_cons, take_succ_getD hi']
        exact (ih hil _).append (List.Sublist.refl _)
      · rw [if_neg hne]
        exact (ih hil w).trans htake

end KnapsackOptimization

/-- A zero-weight item (weight 0, value 5) exposing the untouched `w = 0`
column of the DP table. -/
def zeroWeightItem : InventoryItem :=
  { id := ['z', '1'], name := ['Z'], category := ['C'], quantity := 1, minStock := 0,
    maxStock := 1, unitPrice := 5, location := ⟨'A', 1, 1⟩, dateAdded := [],
    lastUpdated := [], supplier := ['S'], weight := 0, value := 5 }

/-- A unit-weight item (weight 1, value 10). -/
def unitWeightItem : InventoryItem :=
  { id := ['u', '1'], name := ['U'], category := ['C'], quantity := 1, minStock := 0,
    maxStock := 1, unitPrice := 10, location := ⟨'A', 1, 2⟩, dateAdded := [],
    lastUpdated := [], supplier := ['S'], weight := 1, value := 10 }

/-- C2 as stated (for *every* list of items) is false: the DP loop fills only
`w = 1 .. capacity`, so `dp[i][0]` stays `0` even when zero-rounded-weight
items fit there.  With items {weight 0, value 5} and {weight 1, value 10}
and capacity 1, the code returns `totalValue = 10` while brute-force subset
enumeration yields 15 (both items fit: rounded weights 0 + 1 ≤ 1). -/
theorem C2_optimizeValue_counterexample :
    (KnapsackOptimization.optimizeValue [zeroWeightItem, unitWeightItem] 1).totalValue ≠
      KnapsackOptimization.bruteForceBestValue [zeroWeightItem, unitWeightItem] 1 := by
  have h1 : (KnapsackOptimization.optimizeValue
      [zeroWeightItem, unitWeightItem] 1).totalValue = 10 := by
    norm_num [KnapsackOptimization.optimizeValue, KnapsackOptimization.dpTable,
      KnapsackOptimization.roundedWeight, zeroWeightItem, unitWeightItem, List.getD]
  have h2 : KnapsackOptimization.bruteForceBestValue
      [zeroWeightItem, unitWeightItem] 1 = 15 := by
    norm_num [KnapsackOptimization.bruteForceBestValue,
      KnapsackOptimization.subsetRoundedWeight, KnapsackOptimization.subsetValue,
      KnapsackOptimization.roundedWeight, zeroWeightItem, unitWeightItem,
      List.sublists_cons, List.sublists_nil]
  rw [h1, h2]
  norm_num

/-- C2 (amended: all item weights positive, as for real inventory, so every
rounded weight is at least 1): `optimizeValue` uses `Math.ceil` of each
weight as the table index and its `totalValue` equals the brute-force
subset-enumeration maximum over subsets whose rounded weights fit the
capacity; `totalWeight` equals the sum of the true, unrounded weights of
`selectedItems`; and `selectedItems` is a subsequence of the input list in
original relative order. -/
theorem C2_optimizeValue_amended (items : List InventoryItem) (capacity : ℕ)
    (hcap : 0 < capacity) (hw : ∀ it ∈ items, 0 < it.weight) :
    (KnapsackOptimization.optimizeValue items capacity).totalValue =
      KnapsackOptimization.bruteForceBestValue items capacity ∧
    (KnapsackOptimization.optimizeValue items capacity).totalWeight =
      (((KnapsackOptimization.optimizeValue items capacity).selectedItems).map
        (·.weight)).sum ∧
    ((KnapsackOptimization.optimizeValue items capacity).selectedItems).Sublist items := by
  refine ⟨?_, ?_, ?_⟩
  · exact KnapsackOptimization.dpTable_eq_bruteForce items capacity hw
  · simp [KnapsackOptimization.optimizeValue, List.map_reverse, List.sum_reverse]
  · have h := KnapsackOptimization.backtrack_sublist items items.length
      (le_refl _) capacity
    rw [List.take_length] at h
    simpa [KnapsackOptimization.optimizeValue] using h

theorem C2_optimizeValue_amended_witness :
    (0 < 3) ∧ (∀ it ∈ [gameMouseItem, keyboardItem], 0 < it.weight) ∧
    ((KnapsackOptimization.optimizeValue
        [gameMouseItem, keyboardItem] 3).selectedItems).Sublist
      [gameMouseItem, keyboardItem] :=
  ⟨by norm_num, by norm_num [gameMouseItem, keyboardItem],
    (C2_optimizeValue_amended [gameMouseItem, keyboardItem] 3 (by norm_num)
      (by norm_num [gameMouseItem, keyboardItem])).2.2⟩

/-! ## `DijkstraPathFinder` (dijkstra.ts) -/

namespace DijkstraPathFinder

/-- `calculateDistance`: the fixed warehouse metric — aisle letters map to
1-based alphabet positions (`charCodeAt(0) - 64`), and the distance is
`10·|Δaisle| + 5·|Δshelf| + 2·|Δposition|`. -/
def calculateDistance (loc1 loc2 : Location) : ℤ :=
  |((loc1.aisle.toNat : ℤ) - 64) - ((loc2.aisle.toNat : ℤ) - 64)| * 10 +
    |loc1.shelf - loc2.shelf| * 5 + |loc1.position - loc2.position| * 2

/-- The planner's instance state (`this.graph`, `this.locations`). -/
structure PlannerState where
  graph : ℕ → ℕ → WithTop ℤ
  locations : List Location

/-- A freshly constructed `DijkstraPathFinder`: empty matrix and location
list. -/
def initialState : PlannerState := ⟨fun _ _ => ⊤, []⟩

/-- `initializeWarehouseGraph`: stores the location list as given and
replaces the previous matrix wholesale.  The function denotes the two
initialization loops: every in-range entry is written exactly once —
`0` on the diagonal, `calculateDistance` off it — and entries outside the
`n × n` range keep the `Infinity` fill. -/
def initializeWarehouseGraph (st : PlannerState) (locations : List Location) :
    PlannerState :=
  { graph := fun i j =>
      if i < locations.length ∧ j < locations.length then
        if i = j then 0
        else ((calculateDistance (locations.getD i default)
          (locations.getD j default) : ℤ) : WithTop ℤ)
      else ⊤
    locations := locations }

/-- The mutable state of one `dijkstra` run. -/
structure DijkstraState where
  distances : ℕ → WithTop ℤ
  previous : ℕ → Option ℕ
  visited : ℕ → Bool
  visitedNodes : List ℕ

/-- Arrays filled with `Infinity` / `null` / `false`, then
`distances[start] = 0`. -/
def initDState (start : ℕ) : DijkstraState :=
  ⟨fun j => if j = start then 0 else ⊤, fun _ => none, fun _ => false, []⟩

/-- `if (!visited[j] && distances[j] < minDistance)` — one step of the
linear minimum scan. -/
def findMinStep (st : DijkstraState) (acc : WithTop ℤ × Option ℕ) (j : ℕ) :
    WithTop ℤ × Option ℕ :=
  if st.visited j = false ∧ st.distances j < acc.1 then (st.distances j, some j)
  else acc

/-- The full scan over `j = 0 .. n-1`, starting from
`minDistance = Infinity`, `currentNode = -1` (modelled as `none`). -/
def findMinNode (st : DijkstraState) (n : ℕ) : WithTop ℤ × Option ℕ :=
  (List.range n).foldl (findMinStep st) (⊤, none)

/-- Relaxation of one neighbor `j` of the current node `u`. -/
def relaxStep (g : ℕ → ℕ → WithTop ℤ) (u : ℕ) (st : DijkstraState) (j : ℕ) :
    DijkstraState :=
  if st.visited j = false ∧ g u j ≠ ⊤ then
    if st.distances u + g u j < st.distances j then
      { st with
        distances := fun x => if x = j then st.distances u + g u j else st.distances x
        previous := fun x => if x = j then some u else st.previous x }
    else st
  else st

/-- The neighbor-update loop over `neighbor = 0 .. n-1`. -/
def relaxAll (g : ℕ → ℕ → WithTop ℤ) (n u : ℕ) (st : DijkstraState) : DijkstraState :=
  (List.range n).foldl (relaxStep g u) st

/-- `visited[currentNode] = true; visitedNodes.push(currentNode)`. -/
def markVisited (st : DijkstraState) (u : ℕ) : DijkstraState :=
  { st with
    visited := fun x => if x = u then true else st.visited x
    visitedNodes := st.visitedNodes ++ [u] }

/-- The outer `for (let i = 0; i < n; i++)` loop of `dijkstra` with its two
`break`s (`currentNode === -1` and `currentNode === end`), as fuel-indexed
recursion started with fuel `n`. -/
def dijkstraLoop (g : ℕ → ℕ → WithTop ℤ) (n e : ℕ) : ℕ → DijkstraState → DijkstraState
  | 0, st => st
  | fuel + 1, st =>
    match (findMinNode st n).2 with
    | none => st
    | some u =>
      let st1 := markVisited st u
      if u = e then st1 else dijkstraLoop g n e fuel (relaxAll g n u st1)

/-- The `while (current !== null)` predecessor walk (the predecessor chain
the algorithm builds is acyclic, so `n + 1` fuel is never exhausted). -/
def buildPath (prev : ℕ → Option ℕ) : ℕ → ℕ → List ℕ
  | 0, cur => [cur]
  | fuel + 1, cur =>
    match prev cur with
    | none => [cur]
    | some p => buildPath prev fuel p ++ [cur]

/-- The result of the single-pair primitive. -/
structure SingleResult where
  path : List ℕ
  distance : WithTop ℤ
  visitedNodes : List ℕ
deriving DecidableEq

/-- `DijkstraPathFinder.dijkstra`: the dense O(V²), early-terminating
single-pair primitive over matrix `g` with `n = this.graph.length` nodes. -/
def dijkstra (g : ℕ → ℕ → WithTop ℤ) (n start e : ℕ) : SingleResult :=
  let stF := dijkstraLoop g n e n (initDState start)
  { path := buildPath stF.previous (n + 1) e
    distance := stF.distances e
    visitedNodes := stF.visitedNodes }

/-- `findLocationIndex`: first index whose location is structurally equal
(aisle, shelf and position) — `-1` (here `none`) when absent. -/
def findLocationIndex (locations : List Location) (location : Location) : Option ℕ :=
  locations.findIdx? (fun loc =>
    decide (loc.aisle = location.aisle) && decide (loc.shelf = location.shelf) &&
      decide (loc.position = location.position))

/-- The thrown error `new Error('Invalid location specified')`. -/
def invalidLocationMsg : Str := "Invalid location specified".toList

/-- The multi-stop result (`PathResult`; timing omitted). -/
structure PathResult where
  path : List ℕ
  totalDistance : WithTop ℤ
  visitedNodes : List ℕ
deriving DecidableEq

/-- The nearest-neighbor loop state: accumulated route, the visited set (in
insertion order), accumulated visited nodes, running total, current node. -/
structure NNState where
  path : List ℕ
  visitedL : List ℕ
  visitedNodes : List ℕ
  totalDistance : WithTop ℤ
  current : ℕ

/-- One candidate of the `for (const destIndex of destIndices)` nearest
scan. -/
def nearestStep (g : ℕ → ℕ → WithTop ℤ) (n cur : ℕ) (visitedL : List ℕ)
    (acc : WithTop ℤ × Option ℕ) (d : ℕ) : WithTop ℤ × Option ℕ :=
  if d ∉ visitedL then
    if (dijkstra g n cur d).distance < acc.1 then ((dijkstra g n cur d).distance, some d)
    else acc
  else acc

/-- The `while (visited.size <= destIndices.length)` nearest-neighbor loop
(each iteration visits a new destination or breaks, so
`destIndices.length + 1` fuel is never exhausted). -/
def nnLoop (g : ℕ → ℕ → WithTop ℤ) (n : ℕ) (destIndices : List ℕ) :
    ℕ → NNState → NNState
  | 0, st => st
  | fuel + 1, st =>
    if st.visitedL.length ≤ destIndices.length then
      match (destIndices.foldl (nearestStep g n st.current st.visitedL) (⊤, none)).2 with
      | none => st
      | some nl =>
        nnLoop g n destIndices fuel
          { path := st.path ++ (dijkstra g n st.current nl).path.drop 1
            visitedL := st.visitedL ++ [nl]
            visitedNodes := st.visitedNodes ++ (dijkstra g n st.current nl).visitedNodes
            totalDistance := st.totalDistance + (dijkstra g n st.current nl).distance
            current := nl }
    else st

/-- `findOptimalPickingPath`: index lookups, the unknown-location guard, and
the nearest-neighbor heuristic.  The method never writes the planner's
instance state, which is returned unchanged alongside the outcome. -/
def findOptimalPickingPath (st : PlannerState) (startLocation : Location)
    (destinationLocations : List Location) : PlannerState × Except Str PathResult :=
  match findLocationIndex st.locations startLocation with
  | none => (st, .error invalidLocationMsg)
  | some si =>
    let destIdx := destinationLocations.map (findLocationIndex st.locations)
    if destIdx.any (·.isNone) then (st, .error invalidLocationMsg)
    else
      let dests := destIdx.map (fun o => o.getD 0)
      let final := nnLoop st.graph st.locations.length dests
        (destinationLocations.length + 1) ⟨[si], [si], [si], 0, si⟩
      (st, .ok ⟨final.path, final.totalDistance, final.visitedNodes⟩)

/-- The specification's all-pairs reference: Floyd–Warshall on the same
matrix (`k` intermediate nodes allowed). -/
def floydWarshall (g : ℕ → ℕ → WithTop ℤ) : ℕ → ℕ → ℕ → WithTop ℤ
  | 0, i, j => g i j
  | k + 1, i, j =>
    min (floydWarshall g k i j) (floydWarshall g k i k + floydWarshall g k k j)

/-- The total weight of a path: the sum of the matrix entries along its
consecutive pairs. -/
def pathWeight (g : ℕ → ℕ → WithTop ℤ) : List ℕ → WithTop ℤ
  | [] => 0
  | [_] => 0
  | a :: b :: rest => g a b + pathWeight g (b :: rest)

end DijkstraPathFinder

namespace DijkstraPathFinder

theorem calculateDistance_self (l : Location) : calculateDistance l l = 0 := by
  simp [calculateDistance]

theorem calculateDistance_comm (l1 l2 : Location) :
    calculateDistance l1 l2 = calculateDistance l2 l1 := by
  unfold calculateDistance
  rw [abs_sub_comm, abs_sub_comm l1.shelf, abs_sub_comm l1.position]

theorem calculateDistance_nonneg (l1 l2 : Location) : 0 ≤ calculateDistance l1 l2 := by
  unfold calculateDistance
  have h1 := abs_nonneg (((l1.aisle.toNat : ℤ) - 64) - ((l2.aisle.toNat : ℤ) - 64))
  have h2 := abs_nonneg (l1.shelf - l2.shelf)
  have h3 := abs_nonneg (l1.position - l2.position)
  linarith

theorem calculateDistance_triangle (l1 l2 l3 : Location) :
    calculateDistance l1 l3 ≤ calculateDistance l1 l2 + calculateDistance l2 l3 := by
  unfold calculateDistance
  have h1 := abs_sub_le ((l1.aisle.toNat : ℤ) - 64) ((l2.aisle.toNat : ℤ) - 64)
    ((l3.aisle.toNat : ℤ) - 64)
  have h2 := abs_sub_le l1.shelf l2.shelf l3.shelf
  have h3 := abs_sub_le l1.position l2.position l3.position
  linarith

theorem graph_eq (st₀ : PlannerState) (locs : List Location) {i j : ℕ}
    (hi : i < locs.length) (hj : j < locs.length) :
    (initializeWarehouseGraph st₀ locs).graph i j =
      ((calculateDistance (locs.getD i default) (locs.getD j default) : ℤ) :
        WithTop ℤ) := by
  unfold initializeWarehouseGraph
  simp only
  rw [if_pos ⟨hi, hj⟩]
  by_cases hij : i = j
  · subst hij
    rw [if_pos rfl, calculateDistance_self]
    rfl
  · rw [if_neg hij]

/-- Floyd–Warshall never improves on a matrix that satisfies the triangle
inequality: every intermediate relaxation is already dominated. -/
theorem floydWarshall_eq_of_triangle (g : ℕ → ℕ → WithTop ℤ) (n : ℕ)
    (htri : ∀ i j k, i < n → j < n → k < n → g i k ≤ g i j + g j k) :
    ∀ k, k ≤ n → ∀ i j, i < n → j < n → floydWarshall g k i j = g i j := by
  intro k
  induction k with
  | zero => intro _ i j _ _; rfl
  | succ k ih =>
    intro hk i j hi hj
    have hk' : k ≤ n := by omega
    have hkn : k < n := by omega
    show min (floydWarshall g k i j) (floydWarshall g k i k + floydWarshall g k k j) = g i j
    rw [ih hk' i j hi hj, ih hk' i k hi hkn, ih hk' k j hkn hj]
    exact min_eq_left (htri i k j hi hkn hj)

theorem dijkstraState_ext {a b : DijkstraState}
    (h1 : a.distances = b.distances) (h2 : a.previous = b.previous)
    (h3 : a.visited = b.visited) (h4 : a.visitedNodes = b.visitedNodes) : a = b := by
  cases a
  cases b
  simp_all

/-- The distance array after the start node's neighbors have been relaxed
(over the processed index list `done`). -/
def phase1State (g : ℕ → ℕ → WithTop ℤ) (s : ℕ) (done : List ℕ) : DijkstraState :=
  { distances := fun j => if j = s then 0 else if j ∈ done then g s j else ⊤
    previous := fun j => if j ∈ done ∧ j ≠ s then some s else none
    visited := fun x => decide (x = s)
    visitedNodes := [s] }

theorem relaxStep_phase1 (g : ℕ → ℕ → WithTop ℤ) (n s : ℕ)
    (hfin : ∀ i j, i < n → j < n → g i j ≠ ⊤) (hs : s < n)
    (done : List ℕ) (j : ℕ) (hj : j < n) :
    relaxStep g s (phase1State g s done) j = phase1State g s (done ++ [j]) := by
  by_cases hjs : j = s
  · have hskip : relaxStep g s (phase1State g s done) j = phase1State g s done := by
      unfold relaxStep
      rw [if_neg]
      rintro ⟨hv, -⟩
      rw [show (phase1State g s done).visited j = true by simp [phase1State, hjs]] at hv
      exact Bool.noConfusion hv
    rw [hskip]
    refine dijkstraState_ext ?_ ?_ rfl rfl
    · funext x
      by_cases hx : x = s <;> simp [phase1State, hx, hjs]
    · funext x
      by_cases hx : x = s <;> simp [phase1State, hx, hjs]
  · have hvis : (phase1State g s done).visited j = false := by
      simp [phase1State, hjs]
    have hfinj : g s j ≠ ⊤ := hfin s j hs hj
    have hdu : (phase1State g s done).distances s = 0 := by simp [phase1State]
    by_cases hjd : j ∈ done
    · have hnlt : ¬ ((phase1State g s done).distances s + g s j <
          (phase1State g s done).distances j) := by
        rw [hdu, zero_add, show (phase1State g s done).distances j = g s j by
          simp [phase1State, hjs, hjd]]
        exact lt_irrefl _
      have hskip : relaxStep g s (phase1State g s done) j = phase1State g s done := by
        unfold relaxStep
        rw [if_pos ⟨hvis, hfinj⟩, if_neg hnlt]
      rw [hskip]
      refine dijkstraState_ext ?_ ?_ rfl rfl
      · funext x
        by_cases hx : x = j
        · subst hx
          simp [phase1State, hjs, hjd]
        · simp [phase1State, hx]
      · funext x
        by_cases hx : x = j
        · subst hx
          simp [phase1State, hjs, hjd]
        · simp [phase1State, hx]
    · have hlt : (phase1State g s done).distances s + g s j <
          (phase1State g s done).distances j := by
        rw [hdu, zero_add, show (phase1State g s done).distances j = ⊤ by
          simp [phase1State, hjs, hjd]]
        exact Ne.lt_top hfinj
      have hupd : relaxStep g s (phase1State g s done) j =
          { phase1State g s done with
            distances := fun x => if x = j then
              (phase1State g s done).distances s + g s j
              else (phase1State g s done).distances x
            previous := fun x => if x = j then some s
              else (phase1State g s done).previous x } := by
        unfold relaxStep
        rw [if_pos ⟨hvis, hfinj⟩, if_pos hlt]
      rw [hupd]
      refine dijkstraState_ext ?_ ?_ rfl rfl
      · funext x
        by_cases hx : x = j
        · subst hx
          simp [phase1State, hjs, hdu]
        · simp [phase1State, hx]
      · funext x
        by_cases hx : x = j
        · subst hx
          simp [phase1State, hjs]
        · simp [phase1State, hx]

theorem foldl_relax_phase1 (g : ℕ → ℕ → WithTop ℤ) (n s : ℕ)
    (hfin : ∀ i j, i < n → j < n → g i j ≠ ⊤) (hs : s < n) :
    ∀ (js : List ℕ) (done : List ℕ), (∀ j ∈ js, j < n) →
      js.foldl (relaxStep g s) (phase1State g s done) = phase1State g s (done ++ js)
  | [], done, _ => by simp
  | j :: js, done, hjs => by
    rw [List.foldl_cons,
      relaxStep_phase1 g n s hfin hs done j (hjs j (by simp)),
      foldl_relax_phase1 g n s hfin hs js (done ++ [j])
        (fun x hx => hjs x (by simp [hx]))]
    simp

theorem foldl_findMin_saturated (st : DijkstraState) (s : ℕ)
    (hdist : ∀ j, st.distances j = if j = s then 0 else ⊤) :
    ∀ js : List ℕ, js.foldl (findMinStep st) (0, some s) = (0, some s)
  | [] => rfl
  | j :: js => by
    rw [List.foldl_cons]
    have hstep : findMinStep st (0, some s) j = (0, some s) := by
      unfold findMinStep
      rw [if_neg]
      rintro ⟨-, hlt⟩
      rw [hdist j] at hlt
      by_cases hj : j = s <;> simp [hj] at hlt
    rw [hstep]
    exact foldl_findMin_saturated st s hdist js

theorem foldl_findMin_initial (s : ℕ)
    (st : DijkstraState)
    (hdist : ∀ j, st.distances j = if j = s then 0 else ⊤)
    (hvis : ∀ j, st.visited j = false) :
    ∀ js : List ℕ, js.foldl (findMinStep st) (⊤, none) =
      if s ∈ js then (0, some s) else (⊤, none)
  | [] => by simp
  | j :: js => by
    rw [List.foldl_cons]
    by_cases hj : j = s
    · subst hj
      have hstep : findMinStep st (⊤, none) j = (0, some j) := by
        unfold findMinStep
        rw [if_pos ⟨hvis j, by rw [hdist j]; simp⟩, hdist j]
        simp
      rw [hstep, foldl_findMin_saturated st j hdist js]
      simp
    · have hstep : findMinStep st (⊤, none) j = (⊤, none) := by
        unfold findMinStep
        rw [if_neg]
        rintro ⟨-, hlt⟩
        rw [hdist j, if_neg hj] at hlt
        exact not_top_lt hlt
      rw [hstep, foldl_findMin_initial s st hdist hvis js]
      simp [Ne.symm hj, hj]

theorem findMinNode_init (s n : ℕ) (hs : s < n) :
    findMinNode (initDState s) n = (0, some s) := by
  unfold findMinNode
  rw [foldl_findMin_initial s (initDState s) (fun j => rfl) (fun j => rfl)]
  simp [List.mem_range, hs]

theorem foldl_findMin_mem (st : DijkstraState) :
    ∀ (js : List ℕ) (acc : WithTop ℤ × Option ℕ) {u : ℕ},
      (js.foldl (findMinStep st) acc).2 = some u →
      acc.2 = some u ∨ (u ∈ js ∧ st.visited u = false)
  | [], acc, u => fun h => .inl h
  | j :: js, acc, u => fun h => by
    rw [List.foldl_cons] at h
    rcases foldl_findMin_mem st js _ h with h' | h'
    · unfold findMinStep at h'
      split at h'
      · rename_i hguard
        simp only at h'
        cases h'
        exact .inr ⟨by simp, hguard.1⟩
      · exact .inl h'
    · exact .inr ⟨by simp [h'.1], h'.2⟩

theorem findMinNode_mem {st : DijkstraState} {n u : ℕ}
    (h : (findMinNode st n).2 = some u) : u < n ∧ st.visited u = false := by
  rcases foldl_findMin_mem st (List.range n) (⊤, none) h with h' | h'
  · exact Option.noConfusion h'
  · exact ⟨List.mem_range.mp h'.1, h'.2⟩

theorem foldl_fixed {α β : Type} (f : β → α → β) :
    ∀ (js : List α) (b : β), (∀ j ∈ js, f b j = b) → js.foldl f b = b
  | [], _, _ => rfl
  | j :: js, b, h => by
    rw [List.foldl_cons, h j (by simp)]
    exact foldl_fixed f js b (fun x hx => h x (by simp [hx]))

/-- Once the start's neighbors are relaxed, relaxing any further node never
changes a distance (triangle inequality), so the state is a fixed point of
relaxation. -/
theorem relaxAll_fixed (g : ℕ → ℕ → WithTop ℤ) (n s u : ℕ)
    (hfin : ∀ i j, i < n → j < n → g i j ≠ ⊤)
    (hnn : ∀ i j, i < n → j < n → 0 ≤ g i j)
    (htri : ∀ i j k, i < n → j < n → k < n → g i k ≤ g i j + g j k)
    (hs : s < n) (hu : u < n) (hus : u ≠ s)
    (st : DijkstraState)
    (hdist : st.distances = (phase1State g s (List.range n)).distances)
    (hviss : st.visited s = true) :
    relaxAll g n u st = st := by
  unfold relaxAll
  refine foldl_fixed _ _ _ ?_
  intro j hj
  have hjn : j < n := List.mem_range.mp hj
  unfold relaxStep
  by_cases hvj : st.visited j = true
  · rw [if_neg (by simp [hvj])]
  · have hvj' : st.visited j = false := by simpa using hvj
    have hjs : j ≠ s := by
      rintro rfl
      rw [hviss] at hvj'
      exact Bool.noConfusion hvj'
    by_cases hguj : g u j = ⊤
    · rw [if_neg (by simp [hguj])]
    · rw [if_pos ⟨hvj', hguj⟩, if_neg ?_]
      have hdu : st.distances u = g s u := by
        rw [hdist]
        simp [phase1State, hus, List.mem_range, hu]
      have hdj : st.distances j = g s j := by
        rw [hdist]
        simp [phase1State, hjs, List.mem_range, hjn]
      rw [hdu, hdj]
      exact not_lt.mpr (htri s u j hs hu hjn)

/-- After the first iteration, the loop never changes the distance or
predecessor arrays. -/
theorem dijkstraLoop_succ (g : ℕ → ℕ → WithTop ℤ) (n e fuel : ℕ) (st : DijkstraState) :
    dijkstraLoop g n e (fuel + 1) st =
      match (findMinNode st n).2 with
      | none => st
      | some u =>
        if u = e then markVisited st u
        else dijkstraLoop g n e fuel (relaxAll g n u (markVisited st u)) := rfl

/-- After the first iteration, the loop never changes the distance or
predecessor arrays. -/
theorem dijkstraLoop_fixed (g : ℕ → ℕ → WithTop ℤ) (n s e : ℕ)
    (hfin : ∀ i j, i < n → j < n → g i j ≠ ⊤)
    (hnn : ∀ i j, i < n → j < n → 0 ≤ g i j)
    (htri : ∀ i j k, i < n → j < n → k < n → g i k ≤ g i j + g j k)
    (hs : s < n) :
    ∀ (fuel : ℕ) (st : DijkstraState),
      st.distances = (phase1State g s (List.range n)).distances →
      st.previous = (phase1State g s (List.range n)).previous →
      st.visited s = true →
      (dijkstraLoop g n e fuel st).distances =
          (phase1State g s (List.range n)).distances ∧
        (dijkstraLoop g n e fuel st).previous =
          (phase1State g s (List.range n)).previous
  | 0, st => fun hd hp _ => ⟨hd, hp⟩
  | fuel + 1, st => fun hd hp hv => by
    rcases hfm : (findMinNode st n).2 with _ | u
    · have hgoal : dijkstraLoop g n e (fuel + 1) st = st := by
        rw [dijkstraLoop_succ, hfm]
      rw [hgoal]
      exact ⟨hd, hp⟩
    · have hgoal : dijkstraLoop g n e (fuel + 1) st =
          if u = e then markVisited st u
          else dijkstraLoop g n e fuel (relaxAll g n u (markVisited st u)) := by
        rw [dijkstraLoop_succ, hfm]
      have hmem := findMinNode_mem hfm
      have hus : u ≠ s := by
        rintro rfl
        rw [hv] at hmem
        exact Bool.noConfusion hmem.2
      have hd1 : (markVisited st u).distances =
          (phase1State g s (List.range n)).distances := hd
      have hp1 : (markVisited st u).previous =
          (phase1State g s (List.range n)).previous := hp
      have hv1 : (markVisited st u).visited s = true := by
        show (if s = u then true else st.visited s) = true
        rw [if_neg (Ne.symm hus)]
        exact hv
      rw [hgoal]
      by_cases hue : u = e
      · rw [if_pos hue]
        exact ⟨hd1, hp1⟩
      · rw [if_neg hue]
        rw [relaxAll_fixed g n s u hfin hnn htri hs hmem.1 hus _ hd1 hv1]
        exact dijkstraLoop_fixed g n s e hfin hnn htri hs fuel (markVisited st u)
          hd1 hp1 hv1


/-- On a finite, non-negative matrix satisfying the triangle inequality
(as every initialized warehouse graph does), the single-pair primitive
returns the direct-edge distance and the two-node path. -/
theorem dijkstra_metric_correct (g : ℕ → ℕ → WithTop ℤ) (n s e : ℕ)
    (hs : s < n) (he : e < n)
    (hfin : ∀ i j, i < n → j < n → g i j ≠ ⊤)
    (hnn : ∀ i j, i < n → j < n → 0 ≤ g i j)
    (htri : ∀ i j k, i < n → j < n → k < n → g i k ≤ g i j + g j k) :
    (dijkstra g n s e).distance = (if e = s then 0 else g s e) ∧
    (dijkstra g n s e).path = (if e = s then [s] else [s, e]) := by
  obtain ⟨m, hm⟩ : ∃ m, n = m + 1 := ⟨n - 1, by omega⟩
  have hfm : (findMinNode (initDState s) n).2 = some s := by
    rw [findMinNode_init s n hs]
  by_cases hse : s = e
  · subst hse
    have hloop : dijkstraLoop g n s n (initDState s) = markVisited (initDState s) s := by
      rw [congrArg (fun f => dijkstraLoop g n s f (initDState s)) hm,
        dijkstraLoop_succ, hfm]
      show (if s = s then markVisited (initDState s) s
        else dijkstraLoop g n s m (relaxAll g n s (markVisited (initDState s) s))) =
          markVisited (initDState s) s
      rw [if_pos rfl]
    constructor
    · show (dijkstraLoop g n s n (initDState s)).distances s = if s = s then 0 else g s s
      rw [hloop, if_pos rfl]
      show (initDState s).distances s = 0
      simp [initDState]
    · show buildPath (dijkstraLoop g n s n (initDState s)).previous (n + 1) s =
        if s = s then [s] else [s, s]
      rw [hloop, if_pos rfl, hm]
      show buildPath (fun _ => none) (m + 1 + 1) s = [s]
      simp [buildPath]
  · have hes : ¬ e = s := fun h => hse h.symm
    have hst1 : markVisited (initDState s) s = phase1State g s [] := by
      refine dijkstraState_ext ?_ ?_ ?_ ?_
      · funext x
        by_cases hx : x = s <;> simp [initDState, markVisited, phase1State, hx]
      · funext x
        simp [initDState, markVisited, phase1State]
      · funext x
        by_cases hx : x = s <;> simp [initDState, markVisited, phase1State, hx]
      · simp [initDState, markVisited, phase1State]
    have hrelax : relaxAll g n s (markVisited (initDState s) s) =
        phase1State g s (List.range n) := by
      rw [hst1]
      show (List.range n).foldl (relaxStep g s) (phase1State g s []) = _
      rw [foldl_relax_phase1 g n s hfin hs (List.range n) []
        (fun j hj => List.mem_range.mp hj)]
      simp
    have hloop : dijkstraLoop g n e n (initDState s) =
        dijkstraLoop g n e m (phase1State g s (List.range n)) := by
      rw [congrArg (fun f => dijkstraLoop g n e f (initDState s)) hm,
        dijkstraLoop_succ, hfm]
      show (if s = e then markVisited (initDState s) s
        else dijkstraLoop g n e m (relaxAll g n s (markVisited (initDState s) s))) =
          dijkstraLoop g n e m (phase1State g s (List.range n))
      rw [if_neg hse, hrelax]
    obtain ⟨hdfix, hpfix⟩ := dijkstraLoop_fixed g n s e hfin hnn htri hs m
      (phase1State g s (List.range n)) rfl rfl (by simp [phase1State])
    constructor
    · show (dijkstraLoop g n e n (initDState s)).distances e = _
      rw [hloop, hdfix, if_neg hes]
      simp [phase1State, hes, List.mem_range, he]
    · show buildPath (dijkstraLoop g n e n (initDState s)).previous (n + 1) e = _
      rw [hloop, hpfix, if_neg hes]
      have hpe : (phase1State g s (List.range n)).previous e = some s := by
        simp [phase1State, List.mem_range, he, hes]
      have hps : (phase1State g s (List.range n)).previous s = none := by
        simp [phase1State]
      rw [congrArg (fun f => buildPath (phase1State g s (List.range n)).previous f e)
        (by omega : n + 1 = m + 1 + 1)]
      simp [buildPath, hpe, hps]

/-- C4: on every initialized distance graph and every pair of node indices,
the single-pair Dijkstra primitive (including its early termination)
returns the true shortest-path distance — the Floyd–Warshall all-pairs
reference computed on the same matrix — and its returned path runs from
the start to the destination and achieves that distance. -/
theorem C4_dijkstra_matches_reference (st₀ : PlannerState) (locs : List Location)
    (s e : ℕ) (hs : s < locs.length) (he : e < locs.length) :
    (dijkstra (initializeWarehouseGraph st₀ locs).graph locs.length s e).distance =
      floydWarshall (initializeWarehouseGraph st₀ locs).graph locs.length s e ∧
    (dijkstra (initializeWarehouseGraph st₀ locs).graph locs.length s e).path.head? =
      some s ∧
    (dijkstra (initializeWarehouseGraph st₀ locs).graph locs.length s e).path.getLast? =
      some e ∧
    pathWeight (initializeWarehouseGraph st₀ locs).graph
        (dijkstra (initializeWarehouseGraph st₀ locs).graph locs.length s e).path =
      (dijkstra (initializeWarehouseGraph st₀ locs).graph locs.length s e).distance := by
  have hfin : ∀ i j, i < locs.length → j < locs.length →
      (initializeWarehouseGraph st₀ locs).graph i j ≠ ⊤ := by
    intro i j hi hj
    rw [graph_eq st₀ locs hi hj]
    exact WithTop.coe_ne_top
  have h0 : ∀ i, i < locs.length → (initializeWarehouseGraph st₀ locs).graph i i = 0 := by
    intro i hi
    rw [graph_eq st₀ locs hi hi, calculateDistance_self]
    rfl
  have hnn : ∀ i j, i < locs.length → j < locs.length →
      0 ≤ (initializeWarehouseGraph st₀ locs).graph i j := by
    intro i j hi hj
    rw [graph_eq st₀ locs hi hj]
    exact_mod_cast calculateDistance_nonneg _ _
  have htri : ∀ i j k, i < locs.length → j < locs.length → k < locs.length →
      (initializeWarehouseGraph st₀ locs).graph i k ≤
        (initializeWarehouseGraph st₀ locs).graph i j +
          (initializeWarehouseGraph st₀ locs).graph j k := by
    intro i j k hi hj hk
    rw [graph_eq st₀ locs hi hk, graph_eq st₀ locs hi hj, graph_eq st₀ locs hj hk,
      ← WithTop.coe_add, WithTop.coe_le_coe]
    exact calculateDistance_triangle _ _ _
  obtain ⟨hdist, hpath⟩ := dijkstra_metric_correct _ locs.length s e hs he hfin hnn htri
  have hfw : floydWarshall (initializeWarehouseGraph st₀ locs).graph locs.length s e =
      (initializeWarehouseGraph st₀ locs).graph s e :=
    floydWarshall_eq_of_triangle _ locs.length htri locs.length (le_refl _) s e hs he
  refine ⟨?_, ?_, ?_, ?_⟩
  · rw [hdist, hfw]
    by_cases hes : e = s
    · subst hes
      rw [if_pos rfl]
      exact (h0 e he).symm
    · rw [if_neg hes]
  · rw [hpath]
    by_cases hes : e = s <;> simp [hes]
  · rw [hpath]
    by_cases hes : e = s <;> simp [hes]
  · rw [hpath, hdist]
    by_cases hes : e = s <;> simp [hes, pathWeight]

theorem C4_dijkstra_matches_reference_witness :
    ((0 : ℕ) < ([⟨'A', 1, 1⟩, ⟨'B', 2, 1⟩] : List Location).length) ∧
    ((1 : ℕ) < ([⟨'A', 1, 1⟩, ⟨'B', 2, 1⟩] : List Location).length) ∧
    (dijkstra (initializeWarehouseGraph initialState
        [⟨'A', 1, 1⟩, ⟨'B', 2, 1⟩]).graph
        ([⟨'A', 1, 1⟩, ⟨'B', 2, 1⟩] : List Location).length 0 1).distance =
      floydWarshall (initializeWarehouseGraph initialState
        [⟨'A', 1, 1⟩, ⟨'B', 2, 1⟩]).graph
        ([⟨'A', 1, 1⟩, ⟨'B', 2, 1⟩] : List Location).length 0 1 :=
  ⟨by decide, by decide,
    (C4_dijkstra_matches_reference initialState [⟨'A', 1, 1⟩, ⟨'B', 2, 1⟩] 0 1
      (by decide) (by decide)).1⟩

/-- C7 as stated is false: `initializeWarehouseGraph` performs no
deduplication — it stores the caller's location list verbatim (the
RouteOptimization component deduplicates before invoking it).  Given a
duplicated location list, the stored index contains duplicates. -/
theorem C7_initializeGraph_counterexample :
    ¬ ((initializeWarehouseGraph initialState
        [⟨'A', 1, 1⟩, ⟨'A', 1, 1⟩]).locations).Nodup := by
  decide

/-- C7 (amended: the location index is stored as given; deduplication is
performed by the caller, not by this function): the built matrix is
symmetric with zero diagonal, each entry is
`10·|Δaisle| + 5·|Δshelf| + 2·|Δposition|` with aisle letters mapped to
1-based alphabet positions, and re-initialization replaces the previous
graph wholesale (the result does not depend on the prior state). -/
theorem C7_initializeGraph_amended (st₀ st₁ : PlannerState) (locs : List Location)
    (i j : ℕ) (hi : i < locs.length) (hj : j < locs.length) :
    (initializeWarehouseGraph st₀ locs).locations = locs ∧
    initializeWarehouseGraph st₀ locs = initializeWarehouseGraph st₁ locs ∧
    (initializeWarehouseGraph st₀ locs).graph i j =
      (initializeWarehouseGraph st₀ locs).graph j i ∧
    (initializeWarehouseGraph st₀ locs).graph i i = 0 ∧
    (initializeWarehouseGraph st₀ locs).graph i j =
      ((10 * |(((locs.getD i default).aisle.toNat : ℤ) - 64) -
            (((locs.getD j default).aisle.toNat : ℤ) - 64)| +
          5 * |(locs.getD i default).shelf - (locs.getD j default).shelf| +
          2 * |(locs.getD i default).position - (locs.getD j default).position| : ℤ) :
        WithTop ℤ) := by
  refine ⟨rfl, rfl, ?_, ?_, ?_⟩
  · rw [graph_eq st₀ locs hi hj, graph_eq st₀ locs hj hi, calculateDistance_comm]
  · rw [graph_eq st₀ locs hi hi, calculateDistance_self]
    rfl
  · rw [graph_eq st₀ locs hi hj]
    congr 1
    unfold calculateDistance
    ring

theorem C7_initializeGraph_amended_witness :
    ((0 : ℕ) < ([⟨'A', 1, 1⟩, ⟨'B', 2, 1⟩] : List Location).length) ∧
    ((1 : ℕ) < ([⟨'A', 1, 1⟩, ⟨'B', 2, 1⟩] : List Location).length) ∧
    (initializeWarehouseGraph initialState [⟨'A', 1, 1⟩, ⟨'B', 2, 1⟩]).graph 0 1 =
      (initializeWarehouseGraph initialState [⟨'A', 1, 1⟩, ⟨'B', 2, 1⟩]).graph 1 0 :=
  ⟨by decide, by decide,
    (C7_initializeGraph_amended initialState initialState [⟨'A', 1, 1⟩, ⟨'B', 2, 1⟩]
      0 1 (by decide) (by decide)).2.2.1⟩

theorem findLocationIndex_eq_none_iff (locations : List Location) (l : Location) :
    findLocationIndex locations l = none ↔
      ∀ l' ∈ locations,
        ¬ (l'.aisle = l.aisle ∧ l'.shelf = l.shelf ∧ l'.position = l.position) := by
  unfold findLocationIndex
  rw [List.findIdx?_eq_none_iff]
  constructor
  · intro h l' hl' hc
    have h2 := h l' hl'
    rw [Bool.eq_false_iff] at h2
    exact h2 (by simp [hc.1, hc.2.1, hc.2.2])
  · intro h l' hl'
    rw [Bool.eq_false_iff]
    intro hb
    refine h l' hl' ?_
    have hb' : (l'.aisle = l.aisle ∧ l'.shelf = l.shelf) ∧ l'.position = l.position := by
      simpa using hb
    exact ⟨hb'.1.1, hb'.1.2, hb'.2⟩

theorem any_isNone_iff (locations : List Location) (dests : List Location) :
    (dests.map (findLocationIndex locations)).any (·.isNone) = true ↔
      ∃ d ∈ dests, findLocationIndex locations d = none := by
  simp [List.any_map, List.any_eq_true, Option.isNone_iff_eq_none, Function.comp]

end DijkstraPathFinder

/-- C8: `findOptimalPickingPath` throws the `'Invalid location specified'`
error exactly when the start location or at least one destination is not
structurally equal (all of aisle, shelf and position) to some location of
the currently initialized graph; the planner's instance state is returned
unchanged (in particular, a throw produces no result and changes
nothing). -/
theorem C8_unknown_location_error (st : DijkstraPathFinder.PlannerState)
    (start : Location) (dests : List Location) :
    ((DijkstraPathFinder.findOptimalPickingPath st start dests).2 =
        .error DijkstraPathFinder.invalidLocationMsg ↔
      ((¬ ∃ l ∈ st.locations, l.aisle = start.aisle ∧ l.shelf = start.shelf ∧
          l.position = start.position) ∨
        ∃ d ∈ dests, ¬ ∃ l ∈ st.locations, l.aisle = d.aisle ∧ l.shelf = d.shelf ∧
          l.position = d.position)) ∧
    (DijkstraPathFinder.findOptimalPickingPath st start dests).1 = st := by
  have hnone_iff : ∀ loc : Location,
      DijkstraPathFinder.findLocationIndex st.locations loc = none ↔
        ¬ ∃ l ∈ st.locations, l.aisle = loc.aisle ∧ l.shelf = loc.shelf ∧
          l.position = loc.position := by
    intro loc
    rw [DijkstraPathFinder.findLocationIndex_eq_none_iff]
    push_neg
    rfl
  rcases hstart : DijkstraPathFinder.findLocationIndex st.locations start with _ | si
  · have hres : DijkstraPathFinder.findOptimalPickingPath st start dests =
        (st, .error DijkstraPathFinder.invalidLocationMsg) := by
      unfold DijkstraPathFinder.findOptimalPickingPath
      rw [hstart]
    rw [hres]
    refine ⟨⟨fun _ => .inl ((hnone_iff start).mp hstart), fun _ => rfl⟩, rfl⟩
  · rcases hany : (dests.map (DijkstraPathFinder.findLocationIndex st.locations)).any
        (·.isNone) with _ | _
    · have hres : DijkstraPathFinder.findOptimalPickingPath st start dests =
          (st, .ok ⟨(DijkstraPathFinder.nnLoop st.graph st.locations.length
              ((dests.map (DijkstraPathFinder.findLocationIndex st.locations)).map
                (fun o => o.getD 0))
              (dests.length + 1) ⟨[si], [si], [si], 0, si⟩).path,
            (DijkstraPathFinder.nnLoop st.graph st.locations.length
              ((dests.map (DijkstraPathFinder.findLocationIndex st.locations)).map
                (fun o => o.getD 0))
              (dests.length + 1) ⟨[si], [si], [si], 0, si⟩).totalDistance,
            (DijkstraPathFinder.nnLoop st.graph st.locations.length
              ((dests.map (DijkstraPathFinder.findLocationIndex st.locations)).map
                (fun o => o.getD 0))
              (dests.length + 1) ⟨[si], [si], [si], 0, si⟩).visitedNodes⟩) := by
        unfold DijkstraPathFinder.findOptimalPickingPath
        rw [hstart]
        simp only [hany, Bool.false_eq_true, if_false]
      rw [hres]
      refine ⟨⟨fun h => absurd h (by simp), fun h => ?_⟩, rfl⟩
      exfalso
      rcases h with h | h
      · have hcontra : DijkstraPathFinder.findLocationIndex st.locations start = none :=
          (hnone_iff start).mpr h
        rw [hstart] at hcontra
        exact Option.noConfusion hcontra
      · rcases h with ⟨d, hd, hnod⟩
        have : (dests.map (DijkstraPathFinder.findLocationIndex st.locations)).any
            (·.isNone) = true :=
          (DijkstraPathFinder.any_isNone_iff st.locations dests).mpr
            ⟨d, hd, (hnone_iff d).mpr hnod⟩
        rw [hany] at this
        exact Bool.noConfusion this
    · have hres : DijkstraPathFinder.findOptimalPickingPath st start dests =
          (st, .error DijkstraPathFinder.invalidLocationMsg) := by
        unfold DijkstraPathFinder.findOptimalPickingPath
        rw [hstart]
        simp only [hany, if_true]
      rw [hres]
      refine ⟨⟨fun _ => ?_, fun _ => rfl⟩, rfl⟩
      right
      rcases (DijkstraPathFinder.any_isNone_iff st.locations dests).mp hany
        with ⟨d, hd, hdnone⟩
      exact ⟨d, hd, (hnone_iff d).mp hdnone⟩

/-! ## `QuickSort` (sorting.ts) and `BinarySearch` (searching.ts) -/

namespace QuickSort

/-- `QuickSort.getValue`: identical duplicate of `MergeSort.getValue` in
the source. -/
def getValue (item : InventoryItem) (sortBy : SortField) : SortVal :=
  MergeSort.getValue item sortBy

/-- `[arr[i], arr[j]] = [arr[j], arr[i]]`. -/
def swapL (arr : List InventoryItem) (i j : ℕ) : List InventoryItem :=
  (arr.set i (arr.getD j default)).set j (arr.getD i default)

/-- One step of the Lomuto partition scan (`j` ranges over `[low, high)`);
the accumulator carries the array and the boundary `i` (starting at
`low - 1`, hence an integer). -/
def partitionScan (sortBy : SortField) (pivot : SortVal)
    (acc : List InventoryItem × ℤ) (j : ℕ) : List InventoryItem × ℤ :=
  if jsValLe (getValue (acc.1.getD j default) sortBy) pivot then
    (swapL acc.1 (acc.2 + 1).toNat j, acc.2 + 1)
  else acc

/-- `partition(arr, low, high)`: scan, then swap the pivot into place and
return the array with the pivot index. -/
def partitionF (sortBy : SortField) (arr : List InventoryItem) (low high : ℕ) :
    List InventoryItem × ℕ :=
  let pivot := getValue (arr.getD high default) sortBy
  let scanned := ((List.range (high - low)).map (fun k => low + k)).foldl
    (partitionScan sortBy pivot) (arr, (low : ℤ) - 1)
  (swapL scanned.1 (scanned.2 + 1).toNat high, (scanned.2 + 1).toNat)

/-- The recursive `quickSort(arr, low, high)` (fuel-indexed: the recursion
depth is bounded by the segment length, so `length + 1` fuel suffices). -/
def quickSortAux (sortBy : SortField) : ℕ → List InventoryItem → ℤ → ℤ →
    List InventoryItem
  | 0, arr, _, _ => arr
  | fuel + 1, arr, low, high =>
    if low < high then
      let p := partitionF sortBy arr low.toNat high.toNat
      quickSortAux sortBy fuel (quickSortAux sortBy fuel p.1 low ((p.2 : ℤ) - 1))
        ((p.2 : ℤ) + 1) high
    else arr

/-- `QuickSort.sort`: sort a copy in place with Lomuto quicksort. -/
def sort (items : List InventoryItem) (sortBy : SortField) : List InventoryItem :=
  quickSortAux sortBy (items.length + 1) items 0 ((items.length : ℤ) - 1)

end QuickSort

/-- The string-valued fields of an item (the fields on which the search
comparators' string semantics is exercised; the `String(value)` decimal
rendering of numeric fields is outside the modelled scope). -/
inductive StringField where
  | id | name | category | supplier | dateAdded | lastUpdated
deriving DecidableEq

namespace BinarySearch

/-- `BinarySearch.getValue`: the raw string value of the field. -/
def getValue (item : InventoryItem) : StringField → Str
  | .id => item.id
  | .name => item.name
  | .category => item.category
  | .supplier => item.supplier
  | .dateAdded => item.dateAdded
  | .lastUpdated => item.lastUpdated

/-- The three-way sort comparator (`aValue < bValue → -1`, …): ascending by
the raw field value; modelled through the stable built-in sort. -/
def sortLe (searchBy : StringField) (a b : InventoryItem) : Bool :=
  decide (getValue a searchBy ≤ getValue b searchBy)

/-- `BinarySearch.search`: sort a copy by the field, then linear-scan every
element for case-insensitive substring containment of the term. -/
def search (items : List InventoryItem) (searchTerm : Str) (searchBy : StringField) :
    List InventoryItem :=
  (mergeSortBy (sortLe searchBy) items).filter
    (fun it => decide (lowerStr searchTerm <:+: lowerStr (getValue it searchBy)))

end BinarySearch

/-- C9: every engine maps an empty input collection to empty/zero results
without failing: both sorters return `[]`; both searches over an empty
collection return no results; the allocator returns no allocations and no
unallocated items; the knapsack returns no items, zero value and zero
weight; and the route planner with a known start and no destinations
returns the trivial one-node path of total distance zero. -/
theorem C9_empty_inputs :
    (∀ f : SortField, MergeSort.sort [] f = []) ∧
    (∀ f : SortField, QuickSort.sort [] f = []) ∧
    (∀ (term : Str) (f : StringField), BinarySearch.search [] term f = []) ∧
    (∀ (term : Str) (f : HashMapSearch.ItemField),
      HashMapSearch.search (HashMapSearch.buildHashMap []) term f = []) ∧
    (∀ spaces : List WarehouseSpace,
      (GreedyBestFit.allocateSpace [] spaces).allocations = [] ∧
      (GreedyBestFit.allocateSpace [] spaces).unallocated = []) ∧
    (∀ capacity : ℕ, KnapsackOptimization.optimizeValue [] capacity =
      ⟨[], 0, 0⟩) ∧
    (∀ (st : DijkstraPathFinder.PlannerState) (start : Location) (si : ℕ),
      DijkstraPathFinder.findLocationIndex st.locations start = some si →
      DijkstraPathFinder.findOptimalPickingPath st start [] =
        (st, .ok ⟨[si], 0, [si]⟩)) := by
  refine ⟨?_, ?_, ?_, ?_, ?_, ?_, ?_⟩
  · intro f
    rw [MergeSort.sort, mergeSortBy]
    simp
  · intro f
    rw [QuickSort.sort]
    show QuickSort.quickSortAux f (0 + 1) [] 0 (((0 : ℕ) : ℤ) - 1) = []
    rw [QuickSort.quickSortAux]
    norm_num
  · intro term f
    rw [BinarySearch.search, mergeSortBy]
    simp
  · intro term f
    by_cases hf : f ∈ HashMapSearch.indexedFields
    · show (match (HashMapSearch.buildHashMap []).maps f with
        | none => []
        | some m => m (lowerStr term)) = []
      unfold HashMapSearch.buildHashMap
      simp only [hf, if_pos]
      rfl
    · show (match (HashMapSearch.buildHashMap []).maps f with
        | none => []
        | some m => m (lowerStr term)) = []
      unfold HashMapSearch.buildHashMap
      simp [hf]
  · intro spaces
    constructor <;>
      (rw [GreedyBestFit.allocateSpace, mergeSortBy]; simp)
  · intro capacity
    rfl
  · intro st start si h
    unfold DijkstraPathFinder.findOptimalPickingPath
    rw [h]
    simp [DijkstraPathFinder.nnLoop]

theorem C9_empty_inputs_witness :
    (DijkstraPathFinder.findLocationIndex
        (DijkstraPathFinder.initializeWarehouseGraph DijkstraPathFinder.initialState
          [⟨'A', 1, 1⟩]).locations ⟨'A', 1, 1⟩ = some 0) ∧
    DijkstraPathFinder.findOptimalPickingPath
        (DijkstraPathFinder.initializeWarehouseGraph DijkstraPathFinder.initialState
          [⟨'A', 1, 1⟩]) ⟨'A', 1, 1⟩ [] =
      (DijkstraPathFinder.initializeWarehouseGraph DijkstraPathFinder.initialState
        [⟨'A', 1, 1⟩], .ok ⟨[0], 0, [0]⟩) :=
  ⟨by decide,
    C9_empty_inputs.2.2.2.2.2.2
      (DijkstraPathFinder.initializeWarehouseGraph DijkstraPathFinder.initialState
        [⟨'A', 1, 1⟩]) ⟨'A', 1, 1⟩ 0 (by decide)⟩
